import Mathlib

/-!
Verification development for the essay-grading batch application
(`src/main.py`).  The Python source is shallowly embedded: pure string
manipulation becomes functions on `List Char`/`String`, the JSON values
handled by `json.loads` become the inductive `JVal`, the worker thread
(`Worker.run`) becomes a function from an abstract transport outcome to
the signal it emits, and the sequential orchestration
(`process_next_file` / `on_result` / `on_error`) becomes a structurally
recursive function producing the final result cache and an event trace.
-/

namespace EssayGrader

/-! ## Python string primitives -/

/-- Characters treated as whitespace by Python `str.strip` (ASCII range). -/
def isSpaceChar (c : Char) : Bool :=
  c = ' ' || c = '\t' || c = '\n' || c = '\r' || c = '\x0b' || c = '\x0c'

/-- Model of Python `str.strip`: drop whitespace from both ends of a string. -/
def stripL (s : List Char) : List Char :=
  ((s.dropWhile isSpaceChar).reverse.dropWhile isSpaceChar).reverse

/-- Leftmost non-overlapping replacement of `pat` by `rep`, fuelled.  With
`fuel ≥ s.length` and a nonempty `pat` this is Python `s.replace(pat, rep)`;
the source only ever replaces the nonempty fence markers. -/
def replFuel (pat rep : List Char) : Nat → List Char → List Char
  | 0, s => s
  | _ + 1, [] => []
  | fuel + 1, c :: cs =>
    if pat.isPrefixOf (c :: cs) then
      rep ++ replFuel pat rep fuel (List.drop pat.length (c :: cs))
    else
      c :: replFuel pat rep fuel cs

/-- Model of Python `str.replace` (all non-overlapping occurrences). -/
def pyReplace (s pat rep : String) : String :=
  ⟨replFuel pat.data rep.data s.data.length s.data⟩

/-- Model of Python `str.strip`. -/
def pyStrip (s : String) : String := ⟨stripL s.data⟩

/-- Substring test: does `pat` occur contiguously inside `s`? -/
def containsL : List Char → List Char → Bool
  | [], pat => pat.isEmpty
  | c :: cs, pat => pat.isPrefixOf (c :: cs) || containsL cs pat

/-- Model of Python slicing `s[:n]`. -/
def pyTake (n : Nat) (s : String) : String := ⟨s.data.take n⟩

/-- `main.py` line 182: the response post-processing
`content.replace("```json", "").replace("```", "").strip()`. -/
def postprocessS (s : String) : String :=
  pyStrip (pyReplace (pyReplace s "```json" "") "```" "")

/-! ## Decimal rendering of integers (Python `str(int)` / JSON numbers) -/

/-- The decimal digit character for `n < 10`. -/
def digChar (n : Nat) : Char := Char.ofNat (48 + n)

/-- Fuelled digit expansion, most significant digit first. -/
def natCharsAux : Nat → Nat → List Char
  | 0, _ => []
  | fuel + 1, n =>
    if n < 10 then [digChar n] else natCharsAux fuel (n / 10) ++ [digChar (n % 10)]

/-- Decimal digits of a natural number. -/
def natChars (n : Nat) : List Char := natCharsAux (n + 1) n

/-- Decimal rendering of an integer, with a leading minus sign if negative. -/
def intChars (n : Int) : List Char :=
  if n < 0 then '-' :: natChars n.natAbs else natChars n.natAbs

/-- Python `str` on an `int` value. -/
def intStr (n : Int) : String := ⟨intChars n⟩

/-- Is `c` a decimal digit character? -/
def isDigitChar (c : Char) : Bool := '0' ≤ c && c ≤ '9'

/-- Numeric value of a digit character. -/
def digVal (c : Char) : Nat := c.toNat - 48

/-- Does the input begin with a decimal digit? -/
def digitHead : List Char → Bool
  | [] => false
  | c :: _ => isDigitChar c

/-! ## JSON values (the data handled by `json.loads` / emitted by the model)

`json.loads` in the source parses the cleaned model response into nested
dictionaries, lists, strings and numbers.  Floats, `true`/`false`/`null`
literals, `\uXXXX` escapes and inter-token whitespace are outside the
modelled subset; the grading schema uses none of them. -/

mutual
inductive JVal where
  | jstr (s : String)
  | jnum (n : Int)
  | jarr (elems : JArr)
  | jobj (fields : JObj)
inductive JArr where
  | nil
  | cons (hd : JVal) (tl : JArr)
inductive JObj where
  | nil
  | cons (key : String) (v : JVal) (tl : JObj)
end

/-- JSON string-escaping of one character (quote and backslash). -/
def escChar (c : Char) : List Char :=
  if c = '"' || c = '\\' then ['\\', c] else [c]

/-- JSON string-escaping of a character sequence. -/
def escapeL : List Char → List Char
  | [] => []
  | c :: cs => escChar c ++ escapeL cs

mutual
/-- Canonical serialization of a JSON value (no inter-token whitespace). -/
def serV : JVal → List Char
  | .jstr s => '"' :: (escapeL s.data ++ ['"'])
  | .jnum n => intChars n
  | .jarr xs => '[' :: (serA xs ++ [']'])
  | .jobj kvs => '{' :: (serO kvs ++ ['}'])
/-- Serialization of array elements, comma-separated. -/
def serA : JArr → List Char
  | .nil => []
  | .cons v .nil => serV v
  | .cons v (.cons w tl) => serV v ++ ',' :: serA (.cons w tl)
/-- Serialization of object fields, comma-separated. -/
def serO : JObj → List Char
  | .nil => []
  | .cons k v .nil => '"' :: (escapeL k.data ++ '"' :: ':' :: serV v)
  | .cons k v (.cons k2 w tl) =>
    '"' :: (escapeL k.data ++ '"' :: ':' :: serV v) ++ ',' :: serO (.cons k2 w tl)
end

/-- A JSON value as a string. -/
def serializeJ (v : JVal) : String := ⟨serV v⟩

mutual
/-- Structural size, used to bound the parser fuel. -/
def sizeV : JVal → Nat
  | .jstr _ => 1
  | .jnum _ => 1
  | .jarr xs => 1 + sizeA xs
  | .jobj kvs => 1 + sizeO kvs
/-- Structural size of array elements. -/
def sizeA : JArr → Nat
  | .nil => 1
  | .cons v tl => 1 + sizeV v + sizeA tl
/-- Structural size of object fields. -/
def sizeO : JObj → Nat
  | .nil => 1
  | .cons _ v tl => 1 + sizeV v + sizeO tl
end

/-- Unescaping of a character following a backslash. -/
def unescChar (c : Char) : Option Char :=
  if c = '"' then some '"'
  else if c = '\\' then some '\\'
  else if c = '/' then some '/'
  else if c = 'n' then some '\n'
  else if c = 't' then some '\t'
  else if c = 'r' then some '\r'
  else if c = 'b' then some '\x08'
  else if c = 'f' then some '\x0c'
  else none

/-- Parse the body of a JSON string (the opening quote already consumed),
returning the unescaped contents and the input after the closing quote. -/
def parseStrL : List Char → Option (List Char × List Char)
  | [] => none
  | c :: rest =>
    if c = '"' then some ([], rest)
    else if c = '\\' then
      match rest with
      | [] => none
      | d :: rest2 =>
        match unescChar d with
        | some u => (parseStrL rest2).map (fun p => (u :: p.1, p.2))
        | none => none
    else (parseStrL rest).map (fun p => (c :: p.1, p.2))

/-- Parse a maximal run of decimal digits. -/
def parseNatL (s : List Char) : Option (Nat × List Char) :=
  let ds := s.takeWhile isDigitChar
  if ds.isEmpty then none
  else some (ds.foldl (fun a c => a * 10 + digVal c) 0, s.dropWhile isDigitChar)

/-- Parse an integer: an optional minus sign followed by digits. -/
def parseIntL (s : List Char) : Option (Int × List Char) :=
  match s with
  | [] => none
  | c :: rest =>
    if c = '-' then (parseNatL rest).map (fun p => (-(p.1 : Int), p.2))
    else (parseNatL (c :: rest)).map (fun p => ((p.1 : Int), p.2))

mutual
/-- Fuelled recursive-descent parser for a JSON value. -/
def parseV : Nat → List Char → Option (JVal × List Char)
  | 0, _ => none
  | _ + 1, [] => none
  | fuel + 1, c :: rest =>
    if c = '"' then (parseStrL rest).map (fun p => (JVal.jstr ⟨p.1⟩, p.2))
    else if c = '[' then (parseArr fuel rest).map (fun p => (JVal.jarr p.1, p.2))
    else if c = '{' then (parseObjF fuel rest).map (fun p => (JVal.jobj p.1, p.2))
    else if c = '-' || isDigitChar c then
      (parseIntL (c :: rest)).map (fun p => (JVal.jnum p.1, p.2))
    else none
/-- Parse array elements after the opening bracket. -/
def parseArr : Nat → List Char → Option (JArr × List Char)
  | 0, _ => none
  | _ + 1, [] => none
  | fuel + 1, c :: rest =>
    if c = ']' then some (JArr.nil, rest)
    else
      match parseV fuel (c :: rest) with
      | none => none
      | some (v, r) =>
        match r with
        | ',' :: r2 => (parseArr fuel r2).map (fun p => (JArr.cons v p.1, p.2))
        | ']' :: r2 => some (JArr.cons v JArr.nil, r2)
        | _ => none
/-- Parse object fields after the opening brace. -/
def parseObjF : Nat → List Char → Option (JObj × List Char)
  | 0, _ => none
  | _ + 1, [] => none
  | fuel + 1, c :: rest =>
    if c = '}' then some (JObj.nil, rest)
    else if c = '"' then
      match parseStrL rest with
      | none => none
      | some (k, r) =>
        match r with
        | ':' :: r2 =>
          match parseV fuel r2 with
          | none => none
          | some (v, r3) =>
            match r3 with
            | ',' :: r4 => (parseObjF fuel r4).map (fun p => (JObj.cons ⟨k⟩ v p.1, p.2))
            | '}' :: r4 => some (JObj.cons ⟨k⟩ v JObj.nil, r4)
            | _ => none
        | _ => none
    else none
end

/-- Model of `json.loads`: parse a complete JSON value, requiring the whole
input to be consumed. -/
def jparse (s : String) : Option JVal :=
  match parseV (2 * s.data.length + 2) s.data with
  | some (v, []) => some v
  | _ => none

deriving instance DecidableEq for JVal

/-! ## Image normalization (`Worker.encode_image`, lines 141-142)

The color-mode step of `encode_image`:
`if img.mode in ("RGBA", "P"): img = img.convert("RGB")`.
The pixel-level behaviour of PIL `convert` is external; the embedding
tracks the color mode string the JPEG payload is encoded from. -/
def normalizeMode (mode : String) : String :=
  if mode = "RGBA" || mode = "P" then "RGB" else mode

/-! ## The worker thread (`Worker.run`, lines 156-191)

The remote call and the image pipeline are external collaborators; an
abstract `Transport` value tells the worker how they turned out for one
file.  `Worker.run` catches every exception and reduces to: emit
`finished` with the parsed JSON, or emit `error` with a message. -/

/-- Outcome of the external steps for one file: `encode_image` raised
(its message already wrapped as `图片预处理失败: ...` by line 154), the
API call raised, or the model replied with `raw` content. -/
inductive Transport where
  | preprocessErr (cause : String)
  | netErr (msg : String)
  | reply (raw : String)

/-- The one-shot signal a worker emits: `finished(result_json, path)` or
`error(message, path)`; the path argument is carried by the orchestrator. -/
inductive WorkerSignal where
  | finished (result : JVal)
  | error (msg : String)
deriving DecidableEq

/-- Line 188: the parse-failure message, carrying the first 200 characters
of the post-processed content. -/
def parseFailMsg (content : String) : String :=
  "AI返回格式异常，无法解析 JSON。\n原始内容片段:\n" ++ pyTake 200 content

/-- `Worker.run`: a preprocessing exception or transport exception is
caught and emitted as `error(str(e))`; otherwise the reply is
post-processed and parsed, emitting `finished` on success and the
parse-failure `error` otherwise. -/
def workerRun : Transport → WorkerSignal
  | .preprocessErr cause => .error ("图片预处理失败: " ++ cause)
  | .netErr msg => .error msg
  | .reply raw =>
    match jparse (postprocessS raw) with
    | some j => .finished j
    | none => .error (parseFailMsg (postprocessS raw))

/-! ## The batch orchestrator
(`start_grading` / `process_next_file` / `on_result` / `on_error`)

State: `results_store` is a Python dict keyed by file path; insertion
order is preserved and entries are never overwritten, so it is embedded
as an association list extended at the tail.  The chain
`process_next_file → Worker → on_result/on_error → process_next_file`
is sequential (one worker at a time), so it collapses to one recursive
function over the remaining file list, emitting an observable event
trace. -/

/-- The result cache `self.results_store`. -/
abbrev Store := List (String × JVal)

/-- How the external world behaves for each file path during one run. -/
abbrev GradeEnv := String → Transport

/-- `file_path in self.results_store`. -/
def storeHas (store : Store) (p : String) : Bool :=
  store.any (fun e => e.1 = p)

/-- Observable events of one batch run. -/
inductive Ev where
  /-- `self.progress_bar.setValue v`. -/
  | progress (v : Nat)
  /-- `self.worker.start()` for the file at `idx`. -/
  | start (idx : Nat) (path : String)
  /-- `on_error` showed `错误: msg` in the status label and marked the row `[X]`. -/
  | errShown (msg : String)
  /-- the file at `idx` signalled completion (`on_result` if `ok`, else `on_error`). -/
  | finish (idx : Nat) (path : String) (ok : Bool)
  /-- lines 310-315: `所有文件处理完成`, export enabled, completion dialog. -/
  | batchComplete
  /-- line 302: `QMessageBox.warning(..., "请填写API Key和Endpoint")`. -/
  | configError
deriving DecidableEq

/-- The cache update one file causes: skipped files and failed files leave
the cache unchanged; `on_result` appends the parsed result. -/
def stepStore (env : GradeEnv) (store : Store) (p : String) : Store :=
  if storeHas store p then store
  else
    match workerRun (env p) with
    | .finished j => store ++ [(p, j)]
    | .error _ => store

/-- `process_next_file(index, ...)` together with the `on_result`/`on_error`
continuations: processes the remaining files `fs` starting at position
`idx` of a list of `n` files, returning the final cache and the event
trace.  Line 328 sets the progress to `int((index / count) * 100)`
before starting each worker. -/
def processList (env : GradeEnv) (n : Nat) : Nat → Store → List String → Store × List Ev
  | _, store, [] => (store, [.progress 100, .batchComplete])
  | idx, store, p :: rest =>
    if storeHas store p then processList env n (idx + 1) store rest
    else
      match workerRun (env p) with
      | .finished j =>
        let r := processList env n (idx + 1) (store ++ [(p, j)]) rest
        (r.1, .progress (idx * 100 / n) :: .start idx p :: .finish idx p true :: r.2)
      | .error m =>
        let r := processList env n (idx + 1) store rest
        (r.1, .progress (idx * 100 / n) :: .start idx p :: .errShown m :: .finish idx p false :: r.2)

/-- One full pass over the file list (`process_next_file(0, ...)`). -/
def runBatch (env : GradeEnv) (files : List String) (store : Store) : Store × List Ev :=
  processList env files.length 0 store files

/-- The cache as it stands when the file at a given position gets its turn:
the initial cache folded through the files processed before it. -/
def storeBefore (env : GradeEnv) (store : Store) (fs : List String) : Store :=
  fs.foldl (stepStore env) store

/-- `start_grading` (lines 297-307): returns silently when the file list is
empty; reports a configuration error when the stripped API key or the
stripped endpoint is empty; otherwise runs the batch. -/
def start_grading (env : GradeEnv) (files : List String) (store : Store)
    (apiKeyRaw endpointRaw : String) : Store × List Ev :=
  if files.length = 0 then (store, [])
  else if pyStrip apiKeyRaw = "" || pyStrip endpointRaw = "" then (store, [.configError])
  else runBatch env files store

/-! ## The grading-result data model and the two projections

`display_result` and `export_to_word` read the parsed dict only through
`.get` chains with the schema keys; the embedding gives the schema as a
record of optional fields (`none` = key absent).  Values of non-schema
type and extra keys are outside the modelled subset. -/

structure ScoresData where
  dim1_score : Option Int := none
  dim2_score : Option Int := none
  dim3_score : Option Int := none
  total : Option Int := none

structure ContentFB where
  weakness : Option String := none
  suggestion : Option String := none

structure CorrectionItem where
  original : Option String := none
  revised : Option String := none
  explanation : Option String := none

structure LanguageFB where
  sentence_corrections : Option (List CorrectionItem) := none
  general_comment : Option String := none

structure FeedbackDetail where
  content : Option ContentFB := none
  language : Option LanguageFB := none
  /-- the JSON key `structure` (a Lean keyword). -/
  structure_text : Option String := none
  overall_summary : Option String := none

structure GradingData where
  recognized_text : Option String := none
  essay_type : Option String := none
  scores : Option ScoresData := none
  feedback_detail : Option FeedbackDetail := none
  revised_version : Option String := none

/-- Python `f"{x}"` on the result of `.get(key)` (no default): an absent
key interpolates as the literal string `None`. -/
def pyShowOptStr : Option String → String
  | none => "None"
  | some s => s

/-- Python `f"{x}"` on an optional integer value. -/
def pyShowOptInt : Option Int → String
  | none => "None"
  | some n => intStr n

/-- Python `str` on a natural number (loop counters). -/
def natStr (n : Nat) : String := ⟨natChars n⟩

/-- Python truthiness of the `content` sub-dict (an empty dict is falsy;
within the schema a dict is nonempty iff some schema field is present). -/
def ContentFB.truthy (c : ContentFB) : Bool :=
  c.weakness.isSome || c.suggestion.isSome

/-- Python truthiness of the `language` sub-dict. -/
def LanguageFB.truthy (l : LanguageFB) : Bool :=
  l.sentence_corrections.isSome || l.general_comment.isSome

/-! ### Interactive projection (`display_result`, lines 366-424) -/

/-- Line 369: the text shown in the `识别原文` tab. -/
def displayOriginal (g : GradingData) : String :=
  "【类型】：" ++ pyShowOptStr g.essay_type ++ "\n\n" ++ pyShowOptStr g.recognized_text

/-- Line 371: `display_result` passes `data.get('revised_version')` straight
to `setText`; an absent field passes `None` itself, not a placeholder. -/
def displayRevised (g : GradingData) : Option String :=
  g.revised_version

/-- One iteration of the corrections loop of `display_result` (enumerated
from 1). -/
def corrBlock (i : Nat) (item : CorrectionItem) : String :=
  "\n                <div style=\x27margin-bottom:15px; border-bottom:1px dashed #ccc; padding-bottom:10px;\x27>\n                    <p style=\x27margin:4px 0\x27><b>" ++
  natStr i ++ ". 🔴 原句：</b> <span style=\x27color:#555\x27>" ++
  pyShowOptStr item.original ++ "</span></p>\n                    <p style=\x27margin:4px 0\x27><b>🟢 修改：</b> <span style=\x27color:#2E7D32; font-weight:bold\x27>" ++
  pyShowOptStr item.revised ++ "</span></p>\n                    <p style=\x27margin:4px 0; color:#1565C0\x27><b>📘 解析：</b> " ++
  pyShowOptStr item.explanation ++ "</p>\n                </div>\n                "

/-- The `for idx, item in enumerate(corrections, 1)` loop. -/
def corrHtml : Nat → List CorrectionItem → String
  | _, [] => ""
  | i, item :: rest => corrBlock i item ++ corrHtml (i + 1) rest

/-- The HTML built by `display_result` for the `深度精批` tab. -/
def displayFeedback (g : GradingData) : String :=
  let scores := g.scores.getD {}
  let fb := g.feedback_detail.getD {}
  let content_fb := fb.content.getD {}
  let lang_fb := fb.language.getD {}
  let corrections := lang_fb.sentence_corrections.getD []
  "\n        <h2 style=\x27color:#333\x27>总分：<span style=\x27color:#E53935; font-size:24px\x27>" ++
  pyShowOptInt scores.total ++ "/15</span></h2>\n        \n        <table border=\x271\x27 cellpadding=\x276\x27 cellspacing=\x270\x27 style=\x27border-collapse:collapse; width:100%; border-color:#ddd;\x27>\n            <tr style=\x27background-color:#f5f5f5\x27>\n                <th width=\x2733%\x27>内容要点</th><th width=\x2733%\x27>语言表达</th><th width=\x2733%\x27>结构衔接</th>\n            </tr>\n            <tr>\n                <td align=\x27center\x27>" ++
  pyShowOptInt scores.dim1_score ++ "/5</td>\n                <td align=\x27center\x27>" ++
  pyShowOptInt scores.dim2_score ++ "/5</td>\n                <td align=\x27center\x27>" ++
  pyShowOptInt scores.dim3_score ++ "/5</td>\n            </tr>\n        </table>\n\n        <h3 style=\x27background-color:#E3F2FD; padding:5px\x27>一、内容要点</h3>\n        <ul>\n            <li><b>🔻 不足：</b> " ++
  content_fb.weakness.getD "无" ++ "</li>\n            <li><b>💡 建议：</b> " ++
  content_fb.suggestion.getD "无" ++ "</li>\n        </ul>\n\n        <h3 style=\x27background-color:#FFF3E0; padding:5px\x27>二、语言表达 (逐句精改)</h3>\n        " ++
  (if corrections.isEmpty then "<p>暂无具体句子修改建议。</p>" else corrHtml 1 corrections) ++
  "\n        <p><b>整体评价：</b> " ++
  lang_fb.general_comment.getD "" ++ "</p>\n\n        <h3 style=\x27background-color:#E8F5E9; padding:5px\x27>三、结构与衔接</h3>\n        <p>" ++
  fb.structure_text.getD "无" ++ "</p>\n\n        <hr>\n        <p><b>🌟 整体总结：</b> " ++
  fb.overall_summary.getD "" ++ "</p>\n        "

/-! ### Report projection (`export_to_word`, lines 429-527) -/

/-- `os.path.basename` (POSIX separator): the characters after the last
slash. -/
def pyBasename (s : String) : String :=
  ⟨s.data.foldl (fun acc c => if c = '/' then [] else acc ++ [c]) []⟩

/-- The document pieces `export_to_word` emits, in order.  Font, color and
styling of runs live in the external docx library and are not modelled. -/
inductive DocxBlock where
  | heading (level : Nat) (text : String)
  | para (text : String)
  | bullet (text : String)
  | table (hdr row : List String)
  | pageBreak
deriving DecidableEq

/-- One iteration of the corrections loop of `export_to_word` (lines
494-508): three paragraphs plus a spacer paragraph. -/
def corrParas : Nat → List CorrectionItem → List DocxBlock
  | _, [] => []
  | i, item :: rest =>
    [DocxBlock.para (natStr i ++ ". 原句：" ++ item.original.getD ""),
     DocxBlock.para ("   修改：" ++ item.revised.getD ""),
     DocxBlock.para ("   解析：" ++ item.explanation.getD ""),
     DocxBlock.para ""] ++ corrParas (i + 1) rest

/-- The section `export_to_word` writes for one cache entry. -/
def exportSection (path : String) (g : GradingData) : List DocxBlock :=
  let scores := g.scores.getD {}
  let fb := g.feedback_detail.getD {}
  let content_fb := fb.content.getD {}
  let lang_fb := fb.language.getD {}
  let weakness := if content_fb.truthy then pyShowOptStr content_fb.weakness else "无"
  let suggestion := if content_fb.truthy then pyShowOptStr content_fb.suggestion else "无"
  let corrections := if lang_fb.truthy then lang_fb.sentence_corrections.getD [] else []
  [DocxBlock.heading 1 ("文件：" ++ pyBasename path),
   DocxBlock.heading 2 "OCR 识别原文",
   DocxBlock.para (g.recognized_text.getD ""),
   DocxBlock.heading 2 "评分详情",
   DocxBlock.table ["维度", "内容要点", "语言表达", "结构衔接"]
     ["得分", intStr (scores.dim1_score.getD 0), intStr (scores.dim2_score.getD 0),
      intStr (scores.dim3_score.getD 0)],
   DocxBlock.para ("总分：" ++ pyShowOptInt scores.total ++ "/15"),
   DocxBlock.heading 3 "一、内容要点",
   DocxBlock.bullet ("不足：" ++ weakness),
   DocxBlock.bullet ("建议：" ++ suggestion),
   DocxBlock.heading 3 "二、语言表达与逐句修改"] ++
  (if corrections.isEmpty then [DocxBlock.para "暂无具体修改建议。"] else corrParas 1 corrections) ++
  [DocxBlock.heading 3 "三、结构与整体总结",
   DocxBlock.para ("结构评价：" ++ fb.structure_text.getD "无"),
   DocxBlock.para ("整体总结：" ++ fb.overall_summary.getD "无"),
   DocxBlock.heading 2 "满分范文参考",
   DocxBlock.para (g.revised_version.getD "暂无"),
   DocxBlock.pageBreak]

/-- The typed view of a parsed result: the `.get` chains of the renderers
applied to a schema-shaped JSON object. -/
def jlookup : JObj → String → Option JVal
  | .nil, _ => none
  | .cons k v tl, key => if k = key then some v else jlookup tl key

/-- Extract a string value. -/
def asStr : Option JVal → Option String
  | some (.jstr s) => some s
  | _ => none

/-- Extract an integer value. -/
def asInt : Option JVal → Option Int
  | some (.jnum n) => some n
  | _ => none

/-- Extract an object value. -/
def asObj : Option JVal → Option JObj
  | some (.jobj o) => some o
  | _ => none

/-- Extract an array value. -/
def asArr : Option JVal → Option JArr
  | some (.jarr a) => some a
  | _ => none

/-- Array elements as a list. -/
def arrList : JArr → List JVal
  | .nil => []
  | .cons v tl => v :: arrList tl

/-- One sentence-correction dict. -/
def correctionOfJson (v : JVal) : CorrectionItem :=
  match v with
  | .jobj o =>
    { original := asStr (jlookup o "original"),
      revised := asStr (jlookup o "revised"),
      explanation := asStr (jlookup o "explanation") }
  | _ => {}

/-- The `scores` sub-dict. -/
def scoresOfJson (o : JObj) : ScoresData :=
  { dim1_score := asInt (jlookup o "dim1_score"),
    dim2_score := asInt (jlookup o "dim2_score"),
    dim3_score := asInt (jlookup o "dim3_score"),
    total := asInt (jlookup o "total") }

/-- The `feedback_detail` sub-dict. -/
def feedbackOfJson (o : JObj) : FeedbackDetail :=
  { content := (asObj (jlookup o "content")).map (fun c =>
      { weakness := asStr (jlookup c "weakness"),
        suggestion := asStr (jlookup c "suggestion") }),
    language := (asObj (jlookup o "language")).map (fun l =>
      { sentence_corrections :=
          (asArr (jlookup l "sentence_corrections")).map (fun a =>
            (arrList a).map correctionOfJson),
        general_comment := asStr (jlookup l "general_comment") }),
    structure_text := asStr (jlookup o "structure"),
    overall_summary := asStr (jlookup o "overall_summary") }

/-- A parsed grading result as the schema record. -/
def gradingOfJson : JVal → GradingData
  | .jobj o =>
    { recognized_text := asStr (jlookup o "recognized_text"),
      essay_type := asStr (jlookup o "essay_type"),
      scores := (asObj (jlookup o "scores")).map scoresOfJson,
      feedback_detail := (asObj (jlookup o "feedback_detail")).map feedbackOfJson,
      revised_version := asStr (jlookup o "revised_version") }
  | _ => {}

/-- The whole exported document: `for file_path, data in
self.results_store.items()`, one section per cache entry, in dict
insertion order. -/
def exportDoc (store : Store) : List DocxBlock :=
  store.flatMap (fun e => exportSection e.1 (gradingOfJson e.2))

/-- The level-1 headings of a document: one per file section. -/
def sectionHeadings (doc : List DocxBlock) : List String :=
  doc.filterMap (fun b =>
    match b with
    | .heading 1 t => some t
    | _ => none)

/-! ### The substituted view of a result

The spec describes rendering as: substitute a fixed per-field value for
each missing field, then render totally.  `substDisplay`/`substExport`
record what each projection actually substitutes, and the `shown*`
renderers are the total rendering over the substituted record. -/

structure ShownCorrection where
  original : String
  revised : String
  explanation : String

structure ShownResult where
  recognized_text : String
  essay_type : String
  dim1 : String
  dim2 : String
  dim3 : String
  total : String
  weakness : String
  suggestion : String
  corrections : List ShownCorrection
  general_comment : String
  structure_text : String
  overall_summary : String
  revised_text : String

/-- What `display_result` substitutes per missing field: `.get` with no
default interpolates `None`; `weakness`/`suggestion`/`structure` default
to `无`; `general_comment`/`overall_summary` default to the empty string;
missing corrections render as an empty list. -/
def substDisplay (g : GradingData) : ShownResult :=
  let scores := g.scores.getD {}
  let fb := g.feedback_detail.getD {}
  let content_fb := fb.content.getD {}
  let lang_fb := fb.language.getD {}
  { recognized_text := pyShowOptStr g.recognized_text,
    essay_type := pyShowOptStr g.essay_type,
    dim1 := pyShowOptInt scores.dim1_score,
    dim2 := pyShowOptInt scores.dim2_score,
    dim3 := pyShowOptInt scores.dim3_score,
    total := pyShowOptInt scores.total,
    weakness := content_fb.weakness.getD "无",
    suggestion := content_fb.suggestion.getD "无",
    corrections := (lang_fb.sentence_corrections.getD []).map (fun it =>
      { original := pyShowOptStr it.original,
        revised := pyShowOptStr it.revised,
        explanation := pyShowOptStr it.explanation }),
    general_comment := lang_fb.general_comment.getD "",
    structure_text := fb.structure_text.getD "无",
    overall_summary := fb.overall_summary.getD "",
    revised_text := pyShowOptStr g.revised_version }

/-- What `export_to_word` substitutes per missing field: text fields
default to the empty string, dimension scores to `0`, `structure` and
`overall_summary` to `无`, the model essay to `暂无`; `total` has no
default and interpolates `None`; `weakness`/`suggestion` show `无` only
when the whole `content` dict is missing or empty, and `None` when the
dict is nonempty but the key absent. -/
def substExport (g : GradingData) : ShownResult :=
  let scores := g.scores.getD {}
  let fb := g.feedback_detail.getD {}
  let content_fb := fb.content.getD {}
  let lang_fb := fb.language.getD {}
  { recognized_text := g.recognized_text.getD "",
    essay_type := pyShowOptStr g.essay_type,
    dim1 := intStr (scores.dim1_score.getD 0),
    dim2 := intStr (scores.dim2_score.getD 0),
    dim3 := intStr (scores.dim3_score.getD 0),
    total := pyShowOptInt scores.total,
    weakness := if content_fb.truthy then pyShowOptStr content_fb.weakness else "无",
    suggestion := if content_fb.truthy then pyShowOptStr content_fb.suggestion else "无",
    corrections := (if lang_fb.truthy then lang_fb.sentence_corrections.getD [] else []).map
      (fun it =>
        { original := it.original.getD "",
          revised := it.revised.getD "",
          explanation := it.explanation.getD "" }),
    general_comment := lang_fb.general_comment.getD "",
    structure_text := fb.structure_text.getD "无",
    overall_summary := fb.overall_summary.getD "无",
    revised_text := g.revised_version.getD "暂无" }

/-- Total rendering of the `识别原文` tab. -/
def shownOriginal (s : ShownResult) : String :=
  "【类型】：" ++ s.essay_type ++ "\n\n" ++ s.recognized_text

/-- Total rendering of one correction block. -/
def corrBlockShown (i : Nat) (item : ShownCorrection) : String :=
  "\n                <div style=\x27margin-bottom:15px; border-bottom:1px dashed #ccc; padding-bottom:10px;\x27>\n                    <p style=\x27margin:4px 0\x27><b>" ++
  natStr i ++ ". 🔴 原句：</b> <span style=\x27color:#555\x27>" ++
  item.original ++ "</span></p>\n                    <p style=\x27margin:4px 0\x27><b>🟢 修改：</b> <span style=\x27color:#2E7D32; font-weight:bold\x27>" ++
  item.revised ++ "</span></p>\n                    <p style=\x27margin:4px 0; color:#1565C0\x27><b>📘 解析：</b> " ++
  item.explanation ++ "</p>\n                </div>\n                "

/-- Total rendering of the corrections loop. -/
def corrHtmlShown : Nat → List ShownCorrection → String
  | _, [] => ""
  | i, item :: rest => corrBlockShown i item ++ corrHtmlShown (i + 1) rest

/-- Total rendering of the `深度精批` tab. -/
def shownFeedback (s : ShownResult) : String :=
  "\n        <h2 style=\x27color:#333\x27>总分：<span style=\x27color:#E53935; font-size:24px\x27>" ++
  s.total ++ "/15</span></h2>\n        \n        <table border=\x271\x27 cellpadding=\x276\x27 cellspacing=\x270\x27 style=\x27border-collapse:collapse; width:100%; border-color:#ddd;\x27>\n            <tr style=\x27background-color:#f5f5f5\x27>\n                <th width=\x2733%\x27>内容要点</th><th width=\x2733%\x27>语言表达</th><th width=\x2733%\x27>结构衔接</th>\n            </tr>\n            <tr>\n                <td align=\x27center\x27>" ++
  s.dim1 ++ "/5</td>\n                <td align=\x27center\x27>" ++
  s.dim2 ++ "/5</td>\n                <td align=\x27center\x27>" ++
  s.dim3 ++ "/5</td>\n            </tr>\n        </table>\n\n        <h3 style=\x27background-color:#E3F2FD; padding:5px\x27>一、内容要点</h3>\n        <ul>\n            <li><b>🔻 不足：</b> " ++
  s.weakness ++ "</li>\n            <li><b>💡 建议：</b> " ++
  s.suggestion ++ "</li>\n        </ul>\n\n        <h3 style=\x27background-color:#FFF3E0; padding:5px\x27>二、语言表达 (逐句精改)</h3>\n        " ++
  (if s.corrections.isEmpty then "<p>暂无具体句子修改建议。</p>" else corrHtmlShown 1 s.corrections) ++
  "\n        <p><b>整体评价：</b> " ++
  s.general_comment ++ "</p>\n\n        <h3 style=\x27background-color:#E8F5E9; padding:5px\x27>三、结构与衔接</h3>\n        <p>" ++
  s.structure_text ++ "</p>\n\n        <hr>\n        <p><b>🌟 整体总结：</b> " ++
  s.overall_summary ++ "</p>\n        "

/-- Total rendering of the corrections loop of the report projection. -/
def corrParasShown : Nat → List ShownCorrection → List DocxBlock
  | _, [] => []
  | i, item :: rest =>
    [DocxBlock.para (natStr i ++ ". 原句：" ++ item.original),
     DocxBlock.para ("   修改：" ++ item.revised),
     DocxBlock.para ("   解析：" ++ item.explanation),
     DocxBlock.para ""] ++ corrParasShown (i + 1) rest

/-- Total rendering of one report section. -/
def shownSection (path : String) (s : ShownResult) : List DocxBlock :=
  [DocxBlock.heading 1 ("文件：" ++ pyBasename path),
   DocxBlock.heading 2 "OCR 识别原文",
   DocxBlock.para s.recognized_text,
   DocxBlock.heading 2 "评分详情",
   DocxBlock.table ["维度", "内容要点", "语言表达", "结构衔接"]
     ["得分", s.dim1, s.dim2, s.dim3],
   DocxBlock.para ("总分：" ++ s.total ++ "/15"),
   DocxBlock.heading 3 "一、内容要点",
   DocxBlock.bullet ("不足：" ++ s.weakness),
   DocxBlock.bullet ("建议：" ++ s.suggestion),
   DocxBlock.heading 3 "二、语言表达与逐句修改"] ++
  (if s.corrections.isEmpty then [DocxBlock.para "暂无具体修改建议。"]
   else corrParasShown 1 s.corrections) ++
  [DocxBlock.heading 3 "三、结构与整体总结",
   DocxBlock.para ("结构评价：" ++ s.structure_text),
   DocxBlock.para ("整体总结：" ++ s.overall_summary),
   DocxBlock.heading 2 "满分范文参考",
   DocxBlock.para s.revised_text,
   DocxBlock.pageBreak]

/-! ### Trace predicates -/

/-- The worker lifecycle events of a trace. -/
def workerEvs (tr : List Ev) : List Ev :=
  tr.filter fun e =>
    match e with
    | .start _ _ => true
    | .finish _ _ _ => true
    | _ => false

/-- Strict one-at-a-time sequencing: the worker events form consecutive
`start`/`finish` pairs for the same file, with strictly increasing
indices all at least `lo`; a start appears only after the previous
file's finish. -/
inductive Sequential : Nat → List Ev → Prop where
  | nil (lo : Nat) : Sequential lo []
  | pair (lo i : Nat) (p : String) (ok : Bool) (rest : List Ev) :
      lo ≤ i → Sequential (i + 1) rest →
      Sequential lo (Ev.start i p :: Ev.finish i p ok :: rest)

/-- Progress reporting discipline over `n` files: every worker start for
the file at position `i < n` is immediately preceded by the progress
report `i * 100 / n` (the integer percentage `int((index / count) * 100)`
of line 328). -/
inductive ProgOK (n : Nat) : List Ev → Prop where
  | nil : ProgOK n []
  | other (e : Ev) (rest : List Ev) :
      (∀ i p, e ≠ Ev.start i p) → ProgOK n rest → ProgOK n (e :: rest)
  | block (i : Nat) (p : String) (rest : List Ev) :
      i < n → ProgOK n rest →
      ProgOK n (Ev.progress (i * 100 / n) :: Ev.start i p :: rest)

/-! ### Concrete environments used in checks -/

/-- An environment in which every grading attempt fails with a network error. -/
def envAllFail : GradeEnv := fun _ => Transport.netErr "连接失败"

/-- A minimal well-formed model reply. -/
def goodReply : String := "\x7b\"recognized_text\":\"hi\"\x7d"

/-- First run: file `A` hits a transient network error, every other file
gets a well-formed reply. -/
def envRetry1 : GradeEnv := fun p =>
  if p = "A" then Transport.netErr "超时" else Transport.reply goodReply

/-- Second run: every file gets a well-formed reply. -/
def envRetry2 : GradeEnv := fun _ => Transport.reply goodReply

/-! ## Lemmas about the orchestrator -/

theorem storeHas_iff (s : Store) (p : String) :
    storeHas s p = true ↔ ∃ e ∈ s, e.1 = p := by
  simp [storeHas, List.any_eq_true]

theorem processList_store (env : GradeEnv) (n : Nat) :
    ∀ (fs : List String) (idx : Nat) (store : Store),
    (processList env n idx store fs).1 = List.foldl (stepStore env) store fs := by
  intro fs
  induction fs with
  | nil => intro idx store; rfl
  | cons p rest ih =>
    intro idx store
    by_cases h : storeHas store p = true
    · simp [processList, stepStore, h, ih]
    · cases hw : workerRun (env p) with
      | finished j => simp [processList, stepStore, h, hw, ih]
      | error m => simp [processList, stepStore, h, hw, ih]

theorem processList_ends (env : GradeEnv) (n : Nat) :
    ∀ (fs : List String) (idx : Nat) (store : Store),
    ∃ body, (processList env n idx store fs).2 = body ++ [Ev.progress 100, Ev.batchComplete] := by
  intro fs
  induction fs with
  | nil => intro idx store; exact ⟨[], rfl⟩
  | cons p rest ih =>
    intro idx store
    by_cases h : storeHas store p = true
    · simpa [processList, h] using ih (idx + 1) store
    · cases hw : workerRun (env p) with
      | finished j =>
        obtain ⟨body, hb⟩ := ih (idx + 1) (store ++ [(p, j)])
        exact ⟨Ev.progress (idx * 100 / n) :: Ev.start idx p :: Ev.finish idx p true :: body,
          by simp [processList, h, hw, hb]⟩
      | error m =>
        obtain ⟨body, hb⟩ := ih (idx + 1) store
        exact ⟨Ev.progress (idx * 100 / n) :: Ev.start idx p :: Ev.errShown m ::
          Ev.finish idx p false :: body, by simp [processList, h, hw, hb]⟩

theorem runBatch_last (env : GradeEnv) (files : List String) (store : Store) :
    ((runBatch env files store).2).getLast? = some Ev.batchComplete := by
  obtain ⟨body, hb⟩ := processList_ends env files.length files 0 store
  rw [runBatch, hb, show body ++ [Ev.progress 100, Ev.batchComplete] =
    (body ++ [Ev.progress 100]) ++ [Ev.batchComplete] by simp]
  exact List.getLast?_concat _

theorem sequential_mono {lo l} (h : Sequential lo l) :
    ∀ lo', lo' ≤ lo → Sequential lo' l := by
  induction h with
  | nil lo => exact fun lo' _ => Sequential.nil lo'
  | pair lo i p ok rest hle _ ih =>
    exact fun lo' hlo' => Sequential.pair lo' i p ok rest (le_trans hlo' hle)
      (ih (i + 1) le_rfl)

theorem workerEvs_sequential (env : GradeEnv) (n : Nat) :
    ∀ (fs : List String) (idx : Nat) (store : Store),
    Sequential idx (workerEvs (processList env n idx store fs).2) := by
  intro fs
  induction fs with
  | nil => intro idx store; exact Sequential.nil idx
  | cons p rest ih =>
    intro idx store
    by_cases h : storeHas store p = true
    · simpa [processList, h] using sequential_mono (ih (idx + 1) store) idx (Nat.le_succ idx)
    · cases hw : workerRun (env p) with
      | finished j =>
        have := ih (idx + 1) (store ++ [(p, j)])
        simpa [processList, h, hw, workerEvs] using
          Sequential.pair idx idx p true _ le_rfl (by simpa [workerEvs] using this)
      | error m =>
        have := ih (idx + 1) store
        simpa [processList, h, hw, workerEvs] using
          Sequential.pair idx idx p false _ le_rfl (by simpa [workerEvs] using this)

theorem start_mem_get (env : GradeEnv) (n : Nat) :
    ∀ (fs : List String) (idx : Nat) (store : Store) (i : Nat) (p : String),
    Ev.start i p ∈ (processList env n idx store fs).2 →
    ∃ j, i = idx + j ∧ fs[j]? = some p := by
  intro fs
  induction fs with
  | nil =>
    intro idx store i p hmem
    simp [processList] at hmem
  | cons q rest ih =>
    intro idx store i p hmem
    by_cases h : storeHas store q = true
    · rw [processList, if_pos h] at hmem
      obtain ⟨j, hj, hget⟩ := ih (idx + 1) store i p hmem
      exact ⟨j + 1, by omega, by simpa using hget⟩
    · cases hw : workerRun (env q) with
      | finished jv =>
        rw [processList, if_neg h, hw] at hmem
        simp only [List.mem_cons] at hmem
        rcases hmem with h1 | h1 | h1 | h1
        · cases h1
        · obtain ⟨hi, hp⟩ := Ev.start.inj h1
          exact ⟨0, by omega, by simp [hp]⟩
        · cases h1
        · obtain ⟨j, hj, hget⟩ := ih (idx + 1) (store ++ [(q, jv)]) i p h1
          exact ⟨j + 1, by omega, by simpa using hget⟩
      | error m =>
        rw [processList, if_neg h, hw] at hmem
        simp only [List.mem_cons] at hmem
        rcases hmem with h1 | h1 | h1 | h1 | h1
        · cases h1
        · obtain ⟨hi, hp⟩ := Ev.start.inj h1
          exact ⟨0, by omega, by simp [hp]⟩
        · cases h1
        · cases h1
        · obtain ⟨j, hj, hget⟩ := ih (idx + 1) store i p h1
          exact ⟨j + 1, by omega, by simpa using hget⟩

theorem start_of_uncached (env : GradeEnv) (n : Nat) :
    ∀ (fs : List String) (idx : Nat) (store : Store) (j : Nat) (p : String),
    fs[j]? = some p →
    storeHas (storeBefore env store (fs.take j)) p = false →
    Ev.start (idx + j) p ∈ (processList env n idx store fs).2 := by
  intro fs
  induction fs with
  | nil => intro idx store j p hget; simp at hget
  | cons q rest ih =>
    intro idx store j p hget hstore
    cases j with
    | zero =>
      simp only [List.getElem?_cons_zero, Option.some.injEq] at hget
      subst hget
      simp only [List.take_zero, storeBefore, List.foldl_nil] at hstore
      rw [processList, if_neg (by simp [hstore])]
      cases hw : workerRun (env q) <;> simp [hw]
    | succ j =>
      simp only [List.getElem?_cons_succ] at hget
      rw [List.take_succ_cons] at hstore
      have hstep : storeBefore env store (q :: rest.take j) =
          storeBefore env (stepStore env store q) (rest.take j) := rfl
      rw [hstep] at hstore
      have harith : idx + (j + 1) = (idx + 1) + j := by omega
      rw [harith]
      by_cases h : storeHas store q = true
      · have hq : stepStore env store q = store := by simp [stepStore, h]
        rw [hq] at hstore
        rw [processList, if_pos h]
        exact ih (idx + 1) store j p hget hstore
      · cases hw : workerRun (env q) with
        | finished jv =>
          have hq : stepStore env store q = store ++ [(q, jv)] := by simp [stepStore, h, hw]
          rw [hq] at hstore
          rw [processList, if_neg h, hw]
          simp only [List.mem_cons]
          exact Or.inr (Or.inr (Or.inr (ih (idx + 1) (store ++ [(q, jv)]) j p hget hstore)))
        | error m =>
          have hq : stepStore env store q = store := by simp [stepStore, h, hw]
          rw [hq] at hstore
          rw [processList, if_neg h, hw]
          simp only [List.mem_cons]
          exact Or.inr (Or.inr (Or.inr (Or.inr (ih (idx + 1) store j p hget hstore))))

theorem err_of_uncached (env : GradeEnv) (n : Nat) :
    ∀ (fs : List String) (idx : Nat) (store : Store) (j : Nat) (p : String) (m : String),
    fs[j]? = some p →
    storeHas (storeBefore env store (fs.take j)) p = false →
    workerRun (env p) = .error m →
    Ev.errShown m ∈ (processList env n idx store fs).2 ∧
      Ev.finish (idx + j) p false ∈ (processList env n idx store fs).2 := by
  intro fs
  induction fs with
  | nil => intro idx store j p m hget; simp at hget
  | cons q rest ih =>
    intro idx store j p m hget hstore herr
    cases j with
    | zero =>
      simp only [List.getElem?_cons_zero, Option.some.injEq] at hget
      subst hget
      simp only [List.take_zero, storeBefore, List.foldl_nil] at hstore
      rw [processList, if_neg (by simp [hstore]), herr]
      simp
    | succ j =>
      simp only [List.getElem?_cons_succ] at hget
      rw [List.take_succ_cons] at hstore
      have hstep : storeBefore env store (q :: rest.take j) =
          storeBefore env (stepStore env store q) (rest.take j) := rfl
      rw [hstep] at hstore
      have harith : idx + (j + 1) = (idx + 1) + j := by omega
      rw [harith]
      by_cases h : storeHas store q = true
      · have hq : stepStore env store q = store := by simp [stepStore, h]
        rw [hq] at hstore
        rw [processList, if_pos h]
        exact ih (idx + 1) store j p m hget hstore herr
      · cases hw : workerRun (env q) with
        | finished jv =>
          have hq : stepStore env store q = store ++ [(q, jv)] := by simp [stepStore, h, hw]
          rw [hq] at hstore
          rw [processList, if_neg h, hw]
          obtain ⟨h1, h2⟩ := ih (idx + 1) (store ++ [(q, jv)]) j p m hget hstore herr
          simp only [List.mem_cons]
          exact ⟨Or.inr (Or.inr (Or.inr h1)), Or.inr (Or.inr (Or.inr h2))⟩
        | error m2 =>
          have hq : stepStore env store q = store := by simp [stepStore, h, hw]
          rw [hq] at hstore
          rw [processList, if_neg h, hw]
          obtain ⟨h1, h2⟩ := ih (idx + 1) store j p m hget hstore herr
          simp only [List.mem_cons]
          exact ⟨Or.inr (Or.inr (Or.inr (Or.inr h1))), Or.inr (Or.inr (Or.inr (Or.inr h2)))⟩

theorem processList_progress (env : GradeEnv) (n : Nat) :
    ∀ (fs : List String) (idx : Nat) (store : Store), idx + fs.length = n →
    ∃ body, (processList env n idx store fs).2 = body ++ [Ev.progress 100, Ev.batchComplete] ∧
      ProgOK n body ∧ (∀ v, Ev.progress v ∈ body → v < 100) := by
  intro fs
  induction fs with
  | nil =>
    intro idx store _
    exact ⟨[], rfl, ProgOK.nil, by simp⟩
  | cons p rest ih =>
    intro idx store hn
    have hidx : idx < n := by simp at hn; omega
    have hlt : idx * 100 / n < 100 := by
      rw [Nat.div_lt_iff_lt_mul (by omega)]
      omega
    by_cases h : storeHas store p = true
    · rw [processList, if_pos h]
      exact ih (idx + 1) store (by simp at hn ⊢; omega)
    · cases hw : workerRun (env p) with
      | finished jv =>
        obtain ⟨body, hb, hok, hv⟩ := ih (idx + 1) (store ++ [(p, jv)]) (by simp at hn ⊢; omega)
        refine ⟨Ev.progress (idx * 100 / n) :: Ev.start idx p :: Ev.finish idx p true :: body,
          by simp [processList, h, hw, hb], ?_, ?_⟩
        · exact ProgOK.block idx p _ hidx (ProgOK.other _ _ (by intro i q; simp) hok)
        · intro v hv2
          simp only [List.mem_cons] at hv2
          rcases hv2 with h1 | h1 | h1 | h1
          · cases h1; exact hlt
          · cases h1
          · cases h1
          · exact hv v h1
      | error m =>
        obtain ⟨body, hb, hok, hv⟩ := ih (idx + 1) store (by simp at hn ⊢; omega)
        refine ⟨Ev.progress (idx * 100 / n) :: Ev.start idx p :: Ev.errShown m ::
          Ev.finish idx p false :: body,
          by simp [processList, h, hw, hb], ?_, ?_⟩
        · exact ProgOK.block idx p _ hidx (ProgOK.other _ _ (by intro i q; simp)
            (ProgOK.other _ _ (by intro i q; simp) hok))
        · intro v hv2
          simp only [List.mem_cons] at hv2
          rcases hv2 with h1 | h1 | h1 | h1 | h1
          · cases h1; exact hlt
          · cases h1
          · cases h1
          · cases h1
          · exact hv v h1

theorem foldl_stepStore_extra (env : GradeEnv) :
    ∀ (fs : List String) (store : Store),
    ∃ extra, List.foldl (stepStore env) store fs = store ++ extra ∧
      (∀ q r, (q, r) ∈ extra → q ∈ fs ∧ workerRun (env q) = .finished r) ∧
      (extra.map Prod.fst).Sublist fs := by
  intro fs
  induction fs with
  | nil => intro store; exact ⟨[], by simp, by simp, by simp⟩
  | cons q rest ih =>
    intro store
    by_cases h : storeHas store q = true
    · obtain ⟨extra, he, hmem, hsub⟩ := ih store
      refine ⟨extra, by simpa [stepStore, h] using he, ?_, hsub.cons q⟩
      intro a r har
      obtain ⟨h1, h2⟩ := hmem a r har
      exact ⟨List.mem_cons_of_mem q h1, h2⟩
    · cases hw : workerRun (env q) with
      | finished jv =>
        obtain ⟨extra, he, hmem, hsub⟩ := ih (store ++ [(q, jv)])
        refine ⟨(q, jv) :: extra, ?_, ?_, ?_⟩
        · rw [List.foldl_cons, show stepStore env store q = store ++ [(q, jv)] by
            simp [stepStore, h, hw], he]
          simp
        · intro a r har
          simp only [List.mem_cons] at har
          rcases har with h1 | h1
          · obtain ⟨ha, hr⟩ := Prod.mk.inj h1
            subst ha; subst hr
            exact ⟨List.mem_cons_self _ _, hw⟩
          · obtain ⟨h1, h2⟩ := hmem a r h1
            exact ⟨List.mem_cons_of_mem q h1, h2⟩
        · simpa using hsub.cons₂ q
      | error m =>
        obtain ⟨extra, he, hmem, hsub⟩ := ih store
        refine ⟨extra, by simpa [stepStore, h, hw] using he, ?_, hsub.cons q⟩
        intro a r har
        obtain ⟨h1, h2⟩ := hmem a r har
        exact ⟨List.mem_cons_of_mem q h1, h2⟩

theorem storeHas_foldl_false (env : GradeEnv) (fs : List String) (store : Store)
    (p : String) (m : String) (hp : storeHas store p = false)
    (herr : workerRun (env p) = .error m) :
    storeHas (List.foldl (stepStore env) store fs) p = false := by
  obtain ⟨extra, he, hmem, _⟩ := foldl_stepStore_extra env fs store
  rw [he]
  by_contra hcon
  rw [Bool.not_eq_false, storeHas_iff] at hcon
  obtain ⟨e, hein, hep⟩ := hcon
  rcases List.mem_append.mp hein with h1 | h1
  · have : storeHas store p = true := (storeHas_iff store p).mpr ⟨e, h1, hep⟩
    rw [hp] at this
    cases this
  · obtain ⟨_, hfin⟩ := hmem e.1 e.2 (by simpa using h1)
    rw [hep, herr] at hfin
    cases hfin

theorem not_mem_take_of_nodup {files : List String} {i : Nat} {p : String}
    (hnd : files.Nodup) (hget : files[i]? = some p) : p ∉ files.take i := by
  intro hmem
  have hilen : i < files.length := (List.getElem?_eq_some.mp hget).1
  obtain ⟨j, hj⟩ := List.mem_iff_getElem?.mp hmem
  have hjlen : j < (files.take i).length := (List.getElem?_eq_some.mp hj).1
  have hji : j < i := by
    rw [List.length_take] at hjlen
    omega
  have hjget : files[j]? = some p := by
    rwa [List.getElem?_take_of_lt hji] at hj
  have : j = i := by
    apply List.getElem?_inj (by omega : j < files.length) hnd
    rw [hjget, hget]
  omega

/-! ## Lemmas about the projections -/

theorem isEmpty_map {α β : Type} (f : α → β) (l : List α) :
    (l.map f).isEmpty = l.isEmpty := by
  cases l <;> rfl

theorem corrHtmlShown_map : ∀ (i : Nat) (l : List CorrectionItem),
    corrHtmlShown i (l.map (fun it =>
      { original := pyShowOptStr it.original,
        revised := pyShowOptStr it.revised,
        explanation := pyShowOptStr it.explanation })) = corrHtml i l := by
  intro i l
  induction l generalizing i with
  | nil => rfl
  | cons item rest ih =>
    simp only [List.map_cons, corrHtmlShown, corrHtml, corrBlockShown, corrBlock, ih]

theorem corrParasShown_map : ∀ (i : Nat) (l : List CorrectionItem),
    corrParasShown i (l.map (fun it =>
      { original := it.original.getD "",
        revised := it.revised.getD "",
        explanation := it.explanation.getD "" })) = corrParas i l := by
  intro i l
  induction l generalizing i with
  | nil => rfl
  | cons item rest ih =>
    simp only [List.map_cons, corrParasShown, corrParas, ih]

theorem sectionHeadings_append (a b : List DocxBlock) :
    sectionHeadings (a ++ b) = sectionHeadings a ++ sectionHeadings b :=
  List.filterMap_append a b _

theorem sectionHeadings_corrParas : ∀ (l : List CorrectionItem) (i : Nat),
    sectionHeadings (corrParas i l) = [] := by
  intro l
  induction l with
  | nil => intro i; rfl
  | cons item rest ih =>
    intro i
    rw [corrParas, sectionHeadings_append, ih (i + 1), List.append_nil]
    rfl

theorem sectionHeadings_mid (b : Bool) (s : String) (l : List CorrectionItem) :
    sectionHeadings (if b then [DocxBlock.para s] else corrParas 1 l) = [] := by
  cases b
  · simpa using sectionHeadings_corrParas l 1
  · rfl

theorem sectionHeadings_exportSection (p : String) (g : GradingData) :
    sectionHeadings (exportSection p g) = ["文件：" ++ pyBasename p] := by
  rw [exportSection]
  simp only [sectionHeadings_append, sectionHeadings_mid]
  rfl

theorem sectionHeadings_exportDoc (store : Store) :
    sectionHeadings (exportDoc store) =
      store.map (fun e => "文件：" ++ pyBasename e.1) := by
  induction store with
  | nil => rfl
  | cons e rest ih =>
    simp only [exportDoc, List.flatMap_cons] at *
    rw [sectionHeadings_append, sectionHeadings_exportSection, ih]
    rfl

theorem displayFeedback_shown (g : GradingData) :
    displayFeedback g = shownFeedback (substDisplay g) := by
  simp only [displayFeedback, shownFeedback, substDisplay, isEmpty_map, corrHtmlShown_map]

theorem exportSection_shown (p : String) (g : GradingData) :
    exportSection p g = shownSection p (substExport g) := by
  simp only [exportSection, shownSection, substExport, isEmpty_map, corrParasShown_map]

theorem containsL_refl (b : List Char) : containsL b b = true := by
  cases b with
  | nil => rfl
  | cons c cs =>
    simp only [containsL, Bool.or_eq_true]
    exact Or.inl (List.isPrefixOf_iff_prefix.mpr (List.prefix_refl _))

theorem containsL_append_suffix (b : List Char) : ∀ a : List Char,
    containsL (a ++ b) b = true := by
  intro a
  induction a with
  | nil => simpa using containsL_refl b
  | cons c cs ih =>
    have hstep : containsL ((c :: cs) ++ b) b =
        (b.isPrefixOf (c :: (cs ++ b)) || containsL (cs ++ b) b) := rfl
    rw [hstep, ih, Bool.or_true]

theorem storeBefore_take_false (env : GradeEnv) {files : List String} {i : Nat} {p : String}
    (st : Store) (hst : storeHas st p = false) (hnd : files.Nodup)
    (hget : files[i]? = some p) :
    storeHas (storeBefore env st (files.take i)) p = false := by
  obtain ⟨extra, he, hmem, _⟩ := foldl_stepStore_extra env (files.take i) st
  rw [storeBefore, he]
  by_contra hcon
  rw [Bool.not_eq_false, storeHas_iff] at hcon
  obtain ⟨e, hein, hep⟩ := hcon
  rcases List.mem_append.mp hein with h1 | h1
  · have : storeHas st p = true := (storeHas_iff st p).mpr ⟨e, h1, hep⟩
    rw [hst] at this
    cases this
  · obtain ⟨hq, _⟩ := hmem e.1 e.2 (by simpa using h1)
    rw [hep] at hq
    exact not_mem_take_of_nodup hnd hget hq

/-! ## Lemmas about decimal digits -/

theorem digVal_digChar {n : Nat} (h : n < 10) : digVal (digChar n) = n := by
  interval_cases n <;> decide

theorem isDigitChar_digChar {n : Nat} (h : n < 10) : isDigitChar (digChar n) = true := by
  interval_cases n <;> decide

theorem digit_ne {c : Char} (h : isDigitChar c = true) :
    c ≠ '"' ∧ c ≠ '-' ∧ c ≠ '[' ∧ c ≠ '{' ∧ c ≠ ']' ∧ c ≠ '}' ∧ c ≠ ',' ∧ c ≠ ':' := by
  refine ⟨?_, ?_, ?_, ?_, ?_, ?_, ?_, ?_⟩ <;>
    (intro hc; rw [hc] at h; exact absurd h (by decide))

theorem digit_not_space {c : Char} (h : isDigitChar c = true) : isSpaceChar c = false := by
  by_cases h1 : c = ' '
  · rw [h1] at h; exact absurd h (by decide)
  by_cases h2 : c = '\t'
  · rw [h2] at h; exact absurd h (by decide)
  by_cases h3 : c = '\n'
  · rw [h3] at h; exact absurd h (by decide)
  by_cases h4 : c = '\r'
  · rw [h4] at h; exact absurd h (by decide)
  by_cases h5 : c = '\x0b'
  · rw [h5] at h; exact absurd h (by decide)
  by_cases h6 : c = '\x0c'
  · rw [h6] at h; exact absurd h (by decide)
  simp [isSpaceChar, h1, h2, h3, h4, h5, h6]

theorem natCharsAux_digits : ∀ (fuel n : Nat) (c : Char),
    c ∈ natCharsAux fuel n → isDigitChar c = true := by
  intro fuel
  induction fuel with
  | zero => intro n c hc; simp [natCharsAux] at hc
  | succ fuel ih =>
    intro n c hc
    rw [natCharsAux] at hc
    by_cases h : n < 10
    · rw [if_pos h] at hc
      simp only [List.mem_singleton] at hc
      rw [hc]
      exact isDigitChar_digChar h
    · rw [if_neg h] at hc
      rcases List.mem_append.mp hc with h1 | h1
      · exact ih (n / 10) c h1
      · simp only [List.mem_singleton] at h1
        rw [h1]
        exact isDigitChar_digChar (Nat.mod_lt n (by omega))

theorem natCharsAux_ne_nil (fuel n : Nat) : natCharsAux (fuel + 1) n ≠ [] := by
  rw [natCharsAux]
  by_cases h : n < 10
  · rw [if_pos h]
    exact List.cons_ne_nil _ _
  · rw [if_neg h]
    intro hcon
    exact absurd (List.append_eq_nil.mp hcon).2 (List.cons_ne_nil _ _)

theorem natCharsAux_foldl : ∀ (fuel n a : Nat), n < fuel →
    (natCharsAux fuel n).foldl (fun b c => b * 10 + digVal c) a =
      a * 10 ^ (natCharsAux fuel n).length + n := by
  intro fuel
  induction fuel with
  | zero => intro n a h; omega
  | succ fuel ih =>
    intro n a h
    rw [natCharsAux]
    by_cases h10 : n < 10
    · rw [if_pos h10]
      simp [digVal_digChar h10]
    · rw [if_neg h10]
      have hdiv : n / 10 < fuel := by
        have := Nat.div_lt_self (show 0 < n by omega) (show 1 < 10 by omega)
        omega
      rw [List.foldl_append, ih (n / 10) a hdiv]
      simp only [List.foldl_cons, List.foldl_nil, List.length_append, List.length_singleton]
      rw [digVal_digChar (Nat.mod_lt n (by omega))]
      calc (a * 10 ^ (natCharsAux fuel (n / 10)).length + n / 10) * 10 + n % 10
          = a * (10 ^ (natCharsAux fuel (n / 10)).length * 10) + (n / 10 * 10 + n % 10) := by
            ring
        _ = a * 10 ^ ((natCharsAux fuel (n / 10)).length + 1) + n := by
            rw [pow_succ]
            congr 1
            omega

theorem natChars_foldl (n : Nat) :
    (natChars n).foldl (fun b c => b * 10 + digVal c) 0 = n := by
  have := natCharsAux_foldl (n + 1) n 0 (by omega)
  simpa [natChars] using this

theorem natChars_ne_nil (n : Nat) : natChars n ≠ [] :=
  natCharsAux_ne_nil n n

theorem natChars_digits (n : Nat) : ∀ c ∈ natChars n, isDigitChar c = true :=
  fun c hc => natCharsAux_digits (n + 1) n c hc

theorem takeWhile_append_all {p : Char → Bool} : ∀ (l rest : List Char),
    (∀ c ∈ l, p c = true) → (∀ c, rest.head? = some c → p c = false) →
    (l ++ rest).takeWhile p = l ∧ (l ++ rest).dropWhile p = rest := by
  intro l
  induction l with
  | nil =>
    intro rest _ hrest
    cases rest with
    | nil => exact ⟨rfl, rfl⟩
    | cons c t =>
      have := hrest c rfl
      constructor
      · simp [List.takeWhile_cons, this]
      · simp [List.dropWhile_cons, this]
  | cons c cs ih =>
    intro rest hall hrest
    have hc : p c = true := hall c (List.mem_cons_self _ _)
    have hrec := ih rest (fun d hd => hall d (List.mem_cons_of_mem c hd)) hrest
    constructor
    · simp [List.takeWhile_cons, hc, hrec.1]
    · simp [List.dropWhile_cons, hc, hrec.2]

theorem parseNatL_round (n : Nat) (rest : List Char) (hrest : digitHead rest = false) :
    parseNatL (natChars n ++ rest) = some (n, rest) := by
  have hrest2 : ∀ c, rest.head? = some c → isDigitChar c = false := by
    intro c hc
    cases rest with
    | nil => cases hc
    | cons d t =>
      simp only [List.head?_cons, Option.some.injEq] at hc
      rw [← hc]
      exact hrest
  obtain ⟨htake, hdrop⟩ := takeWhile_append_all (natChars n) rest (natChars_digits n) hrest2
  rw [parseNatL]
  simp only [htake, hdrop]
  rw [if_neg (by simpa [List.isEmpty_iff] using natChars_ne_nil n)]
  rw [natChars_foldl n]

theorem intChars_head (i : Int) : ∃ c cs, intChars i = c :: cs ∧
    (c = '-' ∨ isDigitChar c = true) := by
  rw [intChars]
  by_cases h : i < 0
  · rw [if_pos h]
    exact ⟨'-', natChars i.natAbs, rfl, Or.inl rfl⟩
  · rw [if_neg h]
    obtain ⟨c, cs, hcons⟩ := List.exists_cons_of_ne_nil (natChars_ne_nil i.natAbs)
    refine ⟨c, cs, hcons, Or.inr ?_⟩
    exact natChars_digits i.natAbs c (by rw [hcons]; exact List.mem_cons_self _ _)

theorem parseIntL_round (i : Int) (rest : List Char) (hrest : digitHead rest = false) :
    parseIntL (intChars i ++ rest) = some (i, rest) := by
  rw [intChars]
  by_cases h : i < 0
  · rw [if_pos h]
    rw [List.cons_append, parseIntL, if_pos rfl, parseNatL_round i.natAbs rest hrest]
    simp only [Option.map_some', Option.some.injEq, Prod.mk.injEq]
    exact ⟨by omega, trivial⟩
  · rw [if_neg h]
    obtain ⟨c, cs, hcons⟩ := List.exists_cons_of_ne_nil (natChars_ne_nil i.natAbs)
    have hdig : isDigitChar c = true :=
      natChars_digits i.natAbs c (by rw [hcons]; exact List.mem_cons_self _ _)
    rw [hcons, List.cons_append, parseIntL, if_neg (digit_ne hdig).2.1,
      ← List.cons_append, ← hcons, parseNatL_round i.natAbs rest hrest]
    simp only [Option.map_some', Option.some.injEq, Prod.mk.injEq]
    exact ⟨by omega, trivial⟩

/-! ## Lemmas about JSON string escaping -/

theorem parseStrL_cons (c : Char) (rest : List Char) :
    parseStrL (c :: rest) =
      if c = '"' then some ([], rest)
      else if c = '\\' then
        match rest with
        | [] => none
        | d :: rest2 =>
          match unescChar d with
          | some u => (parseStrL rest2).map (fun p => (u :: p.1, p.2))
          | none => none
      else (parseStrL rest).map (fun p => (c :: p.1, p.2)) := by
  rw [parseStrL.eq_def]

theorem parseStrL_escape : ∀ (l rest : List Char),
    parseStrL (escapeL l ++ '"' :: rest) = some (l, rest) := by
  intro l
  induction l with
  | nil =>
    intro rest
    rw [escapeL, List.nil_append, parseStrL_cons, if_pos rfl]
  | cons c cs ih =>
    intro rest
    rw [escapeL, escChar]
    by_cases hc : (c = '"' || c = '\\') = true
    · rw [if_pos hc]
      have h1 : ('\\' : Char) ≠ '"' := by decide
      rcases Bool.or_eq_true _ _ |>.mp hc with h | h
      · rw [decide_eq_true_eq] at h
        subst h
        rw [List.cons_append, List.cons_append, parseStrL_cons, if_neg h1, if_pos rfl]
        show (match unescChar '"' with
          | some u => (parseStrL (escapeL cs ++ '"' :: rest)).map (fun p => (u :: p.1, p.2))
          | none => none) = some ('"' :: cs, rest)
        rw [show unescChar '"' = some '"' from rfl, ih rest]
        rfl
      · rw [decide_eq_true_eq] at h
        subst h
        rw [List.cons_append, List.cons_append, parseStrL_cons, if_neg h1, if_pos rfl]
        show (match unescChar '\\' with
          | some u => (parseStrL (escapeL cs ++ '"' :: rest)).map (fun p => (u :: p.1, p.2))
          | none => none) = some ('\\' :: cs, rest)
        rw [show unescChar '\\' = some '\\' from rfl, ih rest]
        rfl
    · rw [if_neg hc]
      simp only [Bool.or_eq_true, decide_eq_true_eq, not_or] at hc
      simp only [List.nil_append, List.cons_append]
      rw [parseStrL_cons, if_neg hc.1, if_neg hc.2, ih rest]
      rfl

/-! ## Shape facts about the serializer -/

theorem serV_head (v : JVal) : ∃ c cs, serV v = c :: cs ∧
    (c = '"' ∨ c = '-' ∨ isDigitChar c = true ∨ c = '[' ∨ c = '{') := by
  cases v with
  | jstr s => exact ⟨'"', _, rfl, Or.inl rfl⟩
  | jnum n =>
    obtain ⟨c, cs, hcons, hd⟩ := intChars_head n
    exact ⟨c, cs, hcons, by tauto⟩
  | jarr xs => exact ⟨'[', _, rfl, by tauto⟩
  | jobj kvs => exact ⟨'{', _, rfl, by tauto⟩

theorem natCharsAux_last (fuel n : Nat) : ∃ c,
    (natCharsAux (fuel + 1) n).getLast? = some c ∧ isDigitChar c = true := by
  rw [natCharsAux]
  by_cases h : n < 10
  · rw [if_pos h]
    exact ⟨digChar n, rfl, isDigitChar_digChar h⟩
  · rw [if_neg h]
    exact ⟨digChar (n % 10), List.getLast?_concat _,
      isDigitChar_digChar (Nat.mod_lt n (by omega))⟩

theorem intChars_last (i : Int) : ∃ c,
    (intChars i).getLast? = some c ∧ isDigitChar c = true := by
  rw [intChars]
  by_cases h : i < 0
  · rw [if_pos h]
    obtain ⟨c, hc, hd⟩ := natCharsAux_last i.natAbs i.natAbs
    refine ⟨c, ?_, hd⟩
    rw [show ('-' :: natChars i.natAbs) = ['-'] ++ natChars i.natAbs by rfl,
      List.getLast?_append_of_ne_nil _ (natChars_ne_nil i.natAbs)]
    exact hc
  · rw [if_neg h]
    exact natCharsAux_last i.natAbs i.natAbs

theorem serV_last (v : JVal) : ∃ c, (serV v).getLast? = some c ∧
    (c = '"' ∨ isDigitChar c = true ∨ c = ']' ∨ c = '}') := by
  cases v with
  | jstr s =>
    refine ⟨'"', ?_, Or.inl rfl⟩
    rw [serV, ← List.cons_append]
    exact List.getLast?_concat _
  | jnum n =>
    obtain ⟨c, hc, hd⟩ := intChars_last n
    exact ⟨c, hc, Or.inr (Or.inl hd)⟩
  | jarr xs =>
    refine ⟨']', ?_, by tauto⟩
    rw [serV, ← List.cons_append]
    exact List.getLast?_concat _
  | jobj kvs =>
    refine ⟨'}', ?_, by tauto⟩
    rw [serV, ← List.cons_append]
    exact List.getLast?_concat _

/-! ## Step equations and size bounds for the JSON parser -/

theorem parseV_step (fuel : Nat) (c : Char) (rest : List Char) :
    parseV (fuel + 1) (c :: rest) =
      if c = '"' then (parseStrL rest).map (fun p => (JVal.jstr ⟨p.1⟩, p.2))
      else if c = '[' then (parseArr fuel rest).map (fun p => (JVal.jarr p.1, p.2))
      else if c = '{' then (parseObjF fuel rest).map (fun p => (JVal.jobj p.1, p.2))
      else if c = '-' || isDigitChar c then
        (parseIntL (c :: rest)).map (fun p => (JVal.jnum p.1, p.2))
      else none := by
  rw [parseV.eq_def]

theorem parseArr_step (fuel : Nat) (c : Char) (rest : List Char) :
    parseArr (fuel + 1) (c :: rest) =
      if c = ']' then some (JArr.nil, rest)
      else
        match parseV fuel (c :: rest) with
        | none => none
        | some (v, r) =>
          match r with
          | ',' :: r2 => (parseArr fuel r2).map (fun p => (JArr.cons v p.1, p.2))
          | ']' :: r2 => some (JArr.cons v JArr.nil, r2)
          | _ => none := by
  rw [parseArr.eq_def]

theorem parseObjF_step (fuel : Nat) (c : Char) (rest : List Char) :
    parseObjF (fuel + 1) (c :: rest) =
      if c = '}' then some (JObj.nil, rest)
      else if c = '"' then
        match parseStrL rest with
        | none => none
        | some (k, r) =>
          match r with
          | ':' :: r2 =>
            match parseV fuel r2 with
            | none => none
            | some (v, r3) =>
              match r3 with
              | ',' :: r4 => (parseObjF fuel r4).map (fun p => (JObj.cons ⟨k⟩ v p.1, p.2))
              | '}' :: r4 => some (JObj.cons ⟨k⟩ v JObj.nil, r4)
              | _ => none
          | _ => none
      else none := by
  rw [parseObjF.eq_def]

mutual
theorem sizeV_le : ∀ v : JVal, sizeV v ≤ 2 * (serV v).length
  | .jstr s => by
    simp only [sizeV, serV, List.length_cons, List.length_append]
    omega
  | .jnum n => by
    obtain ⟨c, cs, hcons, _⟩ := intChars_head n
    simp only [sizeV, serV, hcons, List.length_cons]
    omega
  | .jarr xs => by
    have h := sizeA_le xs
    simp only [sizeV, serV, List.length_cons, List.length_append] at *
    omega
  | .jobj kvs => by
    have h := sizeO_le kvs
    simp only [sizeV, serV, List.length_cons, List.length_append] at *
    omega
theorem sizeA_le : ∀ xs : JArr, sizeA xs ≤ 2 * (serA xs).length + 2
  | .nil => by simp [sizeA, serA]
  | .cons v .nil => by
    have h := sizeV_le v
    simp only [sizeA, serA] at *
    omega
  | .cons v (.cons w tl) => by
    have h1 := sizeV_le v
    have h2 := sizeA_le (JArr.cons w tl)
    simp only [sizeA, serA, List.length_append, List.length_cons] at *
    omega
theorem sizeO_le : ∀ kvs : JObj, sizeO kvs ≤ 2 * (serO kvs).length + 2
  | .nil => by simp [sizeO, serO]
  | .cons k v .nil => by
    have h := sizeV_le v
    simp only [sizeO, serO, List.length_cons, List.length_append] at *
    omega
  | .cons k v (.cons k2 w tl) => by
    have h1 := sizeV_le v
    have h2 := sizeO_le (JObj.cons k2 w tl)
    simp only [sizeO, serO, List.length_append, List.length_cons] at *
    omega
end

/-! ## The parser inverts the serializer -/

mutual
theorem parseV_ser : ∀ (v : JVal) (fuel : Nat) (rest : List Char),
    sizeV v ≤ fuel → digitHead rest = false →
    parseV fuel (serV v ++ rest) = some (v, rest)
  | .jstr s, fuel, rest, hsz, _ => by
    cases fuel with
    | zero => simp only [sizeV] at hsz; omega
    | succ F =>
      simp only [serV, List.cons_append, List.append_assoc, List.singleton_append,
        List.nil_append]
      rw [parseV_step, if_pos rfl, parseStrL_escape s.data rest]
      rfl
  | .jnum n, fuel, rest, hsz, hrest => by
    cases fuel with
    | zero => simp only [sizeV] at hsz; omega
    | succ F =>
      obtain ⟨c, cs, hcons, hd⟩ := intChars_head n
      have hne1 : c ≠ '"' := by
        rcases hd with h | h
        · rw [h]; decide
        · exact (digit_ne h).1
      have hne2 : c ≠ '[' := by
        rcases hd with h | h
        · rw [h]; decide
        · exact (digit_ne h).2.2.1
      have hne3 : c ≠ '{' := by
        rcases hd with h | h
        · rw [h]; decide
        · exact (digit_ne h).2.2.2.1
      have hcond : (c = '-' || isDigitChar c) = true := by
        rcases hd with h | h
        · simp [h]
        · simp [h]
      simp only [serV]
      rw [hcons, List.cons_append, parseV_step, if_neg hne1, if_neg hne2, if_neg hne3,
        if_pos hcond, ← List.cons_append, ← hcons, parseIntL_round n rest hrest]
      rfl
  | .jarr xs, fuel, rest, hsz, _ => by
    simp only [sizeV] at hsz
    cases fuel with
    | zero => omega
    | succ F =>
      simp only [serV, List.cons_append, List.append_assoc, List.singleton_append,
        List.nil_append]
      rw [parseV_step, if_neg (by decide), if_pos rfl,
        parseA_ser xs F rest (by omega)]
      rfl
  | .jobj kvs, fuel, rest, hsz, _ => by
    simp only [sizeV] at hsz
    cases fuel with
    | zero => omega
    | succ F =>
      simp only [serV, List.cons_append, List.append_assoc, List.singleton_append,
        List.nil_append]
      rw [parseV_step, if_neg (by decide), if_neg (by decide), if_pos rfl,
        parseO_ser kvs F rest (by omega)]
      rfl

theorem parseA_ser : ∀ (xs : JArr) (fuel : Nat) (rest : List Char), sizeA xs ≤ fuel →
    parseArr fuel (serA xs ++ ']' :: rest) = some (xs, rest)
  | .nil, fuel, rest, hsz => by
    cases fuel with
    | zero => simp only [sizeA] at hsz; omega
    | succ F =>
      simp only [serA, List.nil_append]
      rw [parseArr_step, if_pos rfl]
  | .cons v .nil, fuel, rest, hsz => by
    simp only [sizeA] at hsz
    cases fuel with
    | zero => omega
    | succ F =>
      obtain ⟨c, cs, hcons, hd⟩ := serV_head v
      have hne : c ≠ ']' := by
        rcases hd with h | h | h | h | h
        · rw [h]; decide
        · rw [h]; decide
        · exact (digit_ne h).2.2.2.2.1
        · rw [h]; decide
        · rw [h]; decide
      simp only [serA]
      rw [hcons, List.cons_append, parseArr_step, if_neg hne, ← List.cons_append, ← hcons,
        parseV_ser v F (']' :: rest) (by omega) (by rfl)]
      rfl
  | .cons v (.cons w tl), fuel, rest, hsz => by
    simp only [sizeA] at hsz
    cases fuel with
    | zero => omega
    | succ F =>
      obtain ⟨c, cs, hcons, hd⟩ := serV_head v
      have hne : c ≠ ']' := by
        rcases hd with h | h | h | h | h
        · rw [h]; decide
        · rw [h]; decide
        · exact (digit_ne h).2.2.2.2.1
        · rw [h]; decide
        · rw [h]; decide
      have hmain : serA (JArr.cons v (JArr.cons w tl)) ++ ']' :: rest =
          serV v ++ ',' :: (serA (JArr.cons w tl) ++ ']' :: rest) := by
        simp only [serA, List.append_assoc, List.cons_append]
      rw [hmain, hcons, List.cons_append, parseArr_step, if_neg hne, ← List.cons_append,
        ← hcons, parseV_ser v F (',' :: (serA (JArr.cons w tl) ++ ']' :: rest))
          (by omega) (by rfl)]
      show (parseArr F (serA (JArr.cons w tl) ++ ']' :: rest)).map
        (fun p => (JArr.cons v p.1, p.2)) = some (JArr.cons v (JArr.cons w tl), rest)
      rw [parseA_ser (JArr.cons w tl) F rest (by simp only [sizeA]; omega)]
      rfl

theorem parseO_ser : ∀ (kvs : JObj) (fuel : Nat) (rest : List Char), sizeO kvs ≤ fuel →
    parseObjF fuel (serO kvs ++ '}' :: rest) = some (kvs, rest)
  | .nil, fuel, rest, hsz => by
    cases fuel with
    | zero => simp only [sizeO] at hsz; omega
    | succ F =>
      simp only [serO, List.nil_append]
      rw [parseObjF_step, if_pos rfl]
  | .cons k v .nil, fuel, rest, hsz => by
    simp only [sizeO] at hsz
    cases fuel with
    | zero => omega
    | succ F =>
      have hmain : serO (JObj.cons k v JObj.nil) ++ '}' :: rest =
          '"' :: (escapeL k.data ++ '"' :: (':' :: (serV v ++ '}' :: rest))) := by
        simp only [serO, List.cons_append, List.append_assoc]
      rw [hmain, parseObjF_step, if_neg (by decide), if_pos rfl, parseStrL_escape k.data]
      show (match parseV F (serV v ++ '}' :: rest) with
        | none => none
        | some (v2, r3) =>
          match r3 with
          | ',' :: r4 => (parseObjF F r4).map (fun p => (JObj.cons ⟨k.data⟩ v2 p.1, p.2))
          | '}' :: r4 => some (JObj.cons ⟨k.data⟩ v2 JObj.nil, r4)
          | _ => none) = some (JObj.cons k v JObj.nil, rest)
      rw [parseV_ser v F ('}' :: rest) (by omega) (by rfl)]
      rfl
  | .cons k v (.cons k2 w tl), fuel, rest, hsz => by
    simp only [sizeO] at hsz
    cases fuel with
    | zero => omega
    | succ F =>
      have hmain : serO (JObj.cons k v (JObj.cons k2 w tl)) ++ '}' :: rest =
          '"' :: (escapeL k.data ++ '"' ::
            (':' :: (serV v ++ ',' :: (serO (JObj.cons k2 w tl) ++ '}' :: rest)))) := by
        simp only [serO, List.cons_append, List.append_assoc]
      rw [hmain, parseObjF_step, if_neg (by decide), if_pos rfl, parseStrL_escape k.data]
      show (match parseV F (serV v ++ ',' :: (serO (JObj.cons k2 w tl) ++ '}' :: rest)) with
        | none => none
        | some (v2, r3) =>
          match r3 with
          | ',' :: r4 => (parseObjF F r4).map (fun p => (JObj.cons ⟨k.data⟩ v2 p.1, p.2))
          | '}' :: r4 => some (JObj.cons ⟨k.data⟩ v2 JObj.nil, r4)
          | _ => none) = some (JObj.cons k v (JObj.cons k2 w tl), rest)
      rw [parseV_ser v F (',' :: (serO (JObj.cons k2 w tl) ++ '}' :: rest))
        (by omega) (by rfl)]
      show (parseObjF F (serO (JObj.cons k2 w tl) ++ '}' :: rest)).map
        (fun p => (JObj.cons k v p.1, p.2)) = some (JObj.cons k v (JObj.cons k2 w tl), rest)
      rw [parseO_ser (JObj.cons k2 w tl) F rest (by simp only [sizeO]; omega)]
      rfl
end

/-- The parser is a left inverse of the serializer. -/
theorem jparse_serializeJ (v : JVal) : jparse (serializeJ v) = some v := by
  have hfuel : sizeV v ≤ 2 * (serV v).length + 2 := by
    have := sizeV_le v
    omega
  have h := parseV_ser v (2 * (serV v).length + 2) [] hfuel (by rfl)
  rw [List.append_nil] at h
  rw [jparse]
  have hdata : (serializeJ v).data = serV v := rfl
  rw [hdata, h]

/-! ## Post-processing is the identity on fence-free trimmed content -/

theorem replFuel_step (pat rep : List Char) (fuel : Nat) (c : Char) (cs : List Char) :
    replFuel pat rep (fuel + 1) (c :: cs) =
      if pat.isPrefixOf (c :: cs) then
        rep ++ replFuel pat rep fuel (List.drop pat.length (c :: cs))
      else c :: replFuel pat rep fuel cs := by
  rw [replFuel.eq_def]

theorem replFuel_id (pat rep : List Char) : ∀ (fuel : Nat) (s : List Char),
    containsL s pat = false → replFuel pat rep fuel s = s := by
  intro fuel
  induction fuel with
  | zero => intro s _; rfl
  | succ F ih =>
    intro s hs
    cases s with
    | nil => rfl
    | cons c cs =>
      rw [containsL, Bool.or_eq_false_iff] at hs
      rw [replFuel_step, if_neg (by simp [hs.1]), ih cs hs.2]

theorem pyReplace_id (s pat rep : String) (h : containsL s.data pat.data = false) :
    pyReplace s pat rep = s := by
  rw [pyReplace, replFuel_id pat.data rep.data s.data.length s.data h]

theorem containsL_mono (s p q : List Char) (hpq : p.isPrefixOf q = true) :
    containsL s q = true → containsL s p = true := by
  induction s with
  | nil =>
    intro h
    rw [containsL, List.isEmpty_iff] at h
    subst h
    have hp : p = [] := List.prefix_nil.mp (List.isPrefixOf_iff_prefix.mp hpq)
    rw [hp]
    rfl
  | cons c cs ih =>
    intro h
    rw [containsL, Bool.or_eq_true] at h ⊢
    rcases h with h | h
    · exact Or.inl (List.isPrefixOf_iff_prefix.mpr
        ((List.isPrefixOf_iff_prefix.mp hpq).trans (List.isPrefixOf_iff_prefix.mp h)))
    · exact Or.inr (ih h)

theorem fence_free_json_free {s : List Char}
    (h : containsL s ("```".data) = false) : containsL s ("```json".data) = false := by
  by_contra hcon
  rw [Bool.not_eq_false] at hcon
  have := containsL_mono s ("```".data) ("```json".data) (by decide) hcon
  rw [h] at this
  cases this

theorem dropWhile_head_id {p : Char → Bool} (l : List Char)
    (h : ∀ c, l.head? = some c → p c = false) : l.dropWhile p = l := by
  cases l with
  | nil => rfl
  | cons c cs =>
    have := h c rfl
    simp [List.dropWhile_cons, this]

theorem stripL_id (s : List Char)
    (hh : ∀ c, s.head? = some c → isSpaceChar c = false)
    (hl : ∀ c, s.getLast? = some c → isSpaceChar c = false) : stripL s = s := by
  rw [stripL, dropWhile_head_id s hh, dropWhile_head_id s.reverse
    (fun c hc => hl c (by rwa [List.head?_reverse] at hc)), List.reverse_reverse]

theorem serV_head_not_space (v : JVal) :
    ∀ c, (serV v).head? = some c → isSpaceChar c = false := by
  obtain ⟨c0, cs, hcons, hd⟩ := serV_head v
  intro c hc
  rw [hcons] at hc
  simp only [List.head?_cons, Option.some.injEq] at hc
  subst hc
  rcases hd with h | h | h | h | h
  · rw [h]; decide
  · rw [h]; decide
  · exact digit_not_space h
  · rw [h]; decide
  · rw [h]; decide

theorem serV_last_not_space (v : JVal) :
    ∀ c, (serV v).getLast? = some c → isSpaceChar c = false := by
  obtain ⟨c0, hc0, hd⟩ := serV_last v
  intro c hc
  rw [hc0] at hc
  simp only [Option.some.injEq] at hc
  subst hc
  rcases hd with h | h | h | h
  · rw [h]; decide
  · exact digit_not_space h
  · rw [h]; decide
  · rw [h]; decide

theorem postprocessS_id (s : String) (hf : containsL s.data ("```".data) = false)
    (hh : ∀ c, s.data.head? = some c → isSpaceChar c = false)
    (hl : ∀ c, s.data.getLast? = some c → isSpaceChar c = false) :
    postprocessS s = s := by
  rw [postprocessS, pyReplace_id s _ _ (fence_free_json_free hf),
    pyReplace_id s _ _ hf, pyStrip, stripL_id s.data hh hl]

/-! ## Claim theorems (orchestration, configuration, projections, image mode) -/

/-- C1 (counterexample): after a run in which file `A` fails, the result
cache holds no entry at all for `A` (no FailureMarker is recorded), and a
subsequent `runBatch` invocation starts a worker for `A` again — the
Grading Client is re-invoked rather than the file being skipped. -/
theorem c1_failure_marker_cex :
    (runBatch envAllFail ["A"] []).1 = [] ∧
    Ev.start 0 "A" ∈ (runBatch envAllFail ["A"] (runBatch envAllFail ["A"] []).1).2 := by
  decide

/-- C1 (amended): a failed grading attempt records nothing in the result
cache: after the run the failed file is still absent from the cache, its
worker was started during that run, and any subsequent `runBatch`
invocation starts a worker for it again (only succeeded files are
skipped). -/
theorem c1_failed_file_not_cached_and_retried :
    ∀ (env env2 : GradeEnv) (files : List String) (store : Store) (i : Nat) (p m : String),
    files[i]? = some p → files.Nodup → storeHas store p = false →
    workerRun (env p) = .error m →
    storeHas (runBatch env files store).1 p = false ∧
    Ev.start i p ∈ (runBatch env files store).2 ∧
    Ev.start i p ∈ (runBatch env2 files (runBatch env files store).1).2 := by
  intro env env2 files store i p m hget hnd hst herr
  have hstore1 : (runBatch env files store).1 = List.foldl (stepStore env) store files :=
    processList_store env files.length files 0 store
  have h1 : storeHas (runBatch env files store).1 p = false := by
    rw [hstore1]
    exact storeHas_foldl_false env files store p m hst herr
  refine ⟨h1, ?_, ?_⟩
  · have := start_of_uncached env files.length files 0 store i p hget
      (storeBefore_take_false env store hst hnd hget)
    simpa using this
  · have hbt : storeHas (storeBefore env2 (runBatch env files store).1 (files.take i)) p =
        false := storeBefore_take_false env2 _ h1 hnd hget
    have := start_of_uncached env2 files.length files 0 (runBatch env files store).1 i p hget hbt
    simpa using this

/-- C1 (witness for the amended theorem at a concrete input). -/
theorem c1_failed_file_not_cached_and_retried_witness :
    storeHas (runBatch envAllFail ["A"] []).1 "A" = false ∧
    Ev.start 0 "A" ∈ (runBatch envAllFail ["A"] []).2 ∧
    Ev.start 0 "A" ∈ (runBatch envRetry2 ["A"] (runBatch envAllFail ["A"] []).1).2 :=
  c1_failed_file_not_cached_and_retried envAllFail envRetry2 ["A"] [] 0 "A" "连接失败"
    (by decide) (by decide) (by decide) (by decide)

/-- C2: every batch trace has its worker events in strict start/finish
alternation with strictly increasing file indices (at most one file
Running at any time, a new worker only after the previous completion
signal), and every started index carries exactly the file at that
position of the list (list order). -/
theorem c2_sequential_in_list_order :
    ∀ (env : GradeEnv) (files : List String) (store : Store),
    Sequential 0 (workerEvs (runBatch env files store).2) ∧
    ∀ i p, Ev.start i p ∈ (runBatch env files store).2 → files[i]? = some p := by
  intro env files store
  constructor
  · exact workerEvs_sequential env files.length files 0 store
  · intro i p hmem
    obtain ⟨j, hij, hget⟩ := start_mem_get env files.length files 0 store i p hmem
    have : i = j := by omega
    rw [this]
    exact hget

/-- C2 (witness at a concrete input). -/
theorem c2_sequential_in_list_order_witness :
    Sequential 0 (workerEvs (runBatch envAllFail ["A"] []).2) ∧
    (["A"] : List String)[0]? = some "A" :=
  ⟨(c2_sequential_in_list_order envAllFail ["A"] []).1,
   (c2_sequential_in_list_order envAllFail ["A"] []).2 0 "A" (by decide)⟩

/-- C3: regardless of how the external grading behaves, a batch trace
always ends with the batch-complete event; an uncached file whose worker
errors contributes a user-visible error message and a Failed completion
for exactly that file; and every uncached file gets its worker started —
a per-file error never prevents later files from being processed. -/
theorem c3_per_file_errors_isolated :
    ∀ (env : GradeEnv) (files : List String) (store : Store),
    ((runBatch env files store).2).getLast? = some Ev.batchComplete ∧
    (∀ i p m, files[i]? = some p →
      storeHas (storeBefore env store (files.take i)) p = false →
      workerRun (env p) = .error m →
      Ev.errShown m ∈ (runBatch env files store).2 ∧
      Ev.finish i p false ∈ (runBatch env files store).2) ∧
    (∀ i p, files[i]? = some p →
      storeHas (storeBefore env store (files.take i)) p = false →
      Ev.start i p ∈ (runBatch env files store).2) := by
  intro env files store
  refine ⟨runBatch_last env files store, ?_, ?_⟩
  · intro i p m hget hsb herr
    have := err_of_uncached env files.length files 0 store i p m hget hsb herr
    simpa using this
  · intro i p hget hsb
    have := start_of_uncached env files.length files 0 store i p hget hsb
    simpa using this

/-- C3 (witness at a concrete input: both files of a two-file batch fail,
yet the batch runs to completion and both failures are reported). -/
theorem c3_per_file_errors_isolated_witness :
    ((runBatch envAllFail ["A", "B"] []).2).getLast? = some Ev.batchComplete ∧
    Ev.errShown "连接失败" ∈ (runBatch envAllFail ["A", "B"] []).2 ∧
    Ev.finish 1 "B" false ∈ (runBatch envAllFail ["A", "B"] []).2 :=
  ⟨(c3_per_file_errors_isolated envAllFail ["A", "B"] []).1,
   ((c3_per_file_errors_isolated envAllFail ["A", "B"] []).2.1 1 "B" "连接失败"
      (by decide) (by decide) (by decide)).1,
   ((c3_per_file_errors_isolated envAllFail ["A", "B"] []).2.1 1 "B" "连接失败"
      (by decide) (by decide) (by decide)).2⟩

/-- C4 (counterexample): with files `[A, B]`, a first run where `A` fails
and `B` succeeds, and a second run where the retried `A` succeeds, the
exported report lists the section for `B` before the section for `A` —
cache insertion order, not file-list order. -/
theorem c4_export_order_cex :
    sectionHeadings (exportDoc
      (runBatch envRetry2 ["A", "B"] (runBatch envRetry1 ["A", "B"] []).1).1) =
      ["文件：B", "文件：A"] ∧
    (["文件：B", "文件：A"] : List String) ≠ ["文件：A", "文件：B"] := by
  decide

/-- C4 (amended): the export contains exactly one section per cache entry,
in cache insertion order; every cache entry is a successful parsed
result (failed files are never stored, hence never exported); and for a
single `runBatch` over an empty cache the insertion order is a sublist of
the file list, i.e. file-list order. -/
theorem c4_export_sections_insertion_order :
    ∀ (env : GradeEnv) (files : List String),
    sectionHeadings (exportDoc (runBatch env files []).1) =
      ((runBatch env files []).1).map (fun e => "文件：" ++ pyBasename e.1) ∧
    (((runBatch env files []).1).map Prod.fst).Sublist files ∧
    (∀ q r, (q, r) ∈ (runBatch env files []).1 → workerRun (env q) = .finished r) := by
  intro env files
  have hstore : (runBatch env files []).1 = List.foldl (stepStore env) [] files :=
    processList_store env files.length files 0 []
  obtain ⟨extra, he, hmem, hsub⟩ := foldl_stepStore_extra env files []
  simp only [List.nil_append] at he
  refine ⟨sectionHeadings_exportDoc _, ?_, ?_⟩
  · rw [hstore, he]
    exact hsub
  · intro q r hqr
    rw [hstore, he] at hqr
    exact (hmem q r hqr).2

/-- C4 (witness for the amended theorem at a concrete input). -/
theorem c4_export_sections_insertion_order_witness :
    (((runBatch envRetry2 ["A"] []).1).map Prod.fst).Sublist ["A"] ∧
    workerRun (envRetry2 "A") =
      .finished (JVal.jobj (JObj.cons "recognized_text" (JVal.jstr "hi") JObj.nil)) :=
  ⟨(c4_export_sections_insertion_order envRetry2 ["A"]).2.1,
   (c4_export_sections_insertion_order envRetry2 ["A"]).2.2 "A"
     (JVal.jobj (JObj.cons "recognized_text" (JVal.jstr "hi") JObj.nil)) (by decide)⟩

/-- C5 (counterexample): with every optional field absent, the interactive
projection renders the literal string `None` for the essay type and the
recognized text — not the placeholder `无` and not the empty string — and
the revised-essay view receives the absent value itself rather than any
placeholder string. -/
theorem c5_placeholder_cex :
    displayOriginal {} = "【类型】：None\n\nNone" ∧
    displayOriginal {} ≠ "【类型】：无\n\n无" ∧
    displayOriginal {} ≠ "【类型】：\n\n" ∧
    displayRevised {} = none := by
  decide

/-- C5 (amended): both projections are total (never raise) and factor as a
per-field substitution followed by total rendering, but the substituted
values are not uniformly `无`/empty: fields read without a `.get` default
(essay type, recognized text, all four score cells of the interactive
table, the total in both projections, correction fields in the
interactive view) substitute the literal `None`; defaulted fields
substitute `无`, the empty string, `0`, or `暂无` as recorded in
`substDisplay`/`substExport`; and the interactive revised-essay view
passes the raw optional through unsubstituted. -/
theorem c5_projections_totalize_with_substitutions :
    ∀ (g : GradingData),
    displayOriginal g = shownOriginal (substDisplay g) ∧
    displayFeedback g = shownFeedback (substDisplay g) ∧
    displayRevised g = g.revised_version ∧
    ∀ p, exportSection p g = shownSection p (substExport g) := by
  intro g
  exact ⟨rfl, displayFeedback_shown g, rfl, fun p => exportSection_shown p g⟩

/-- C7 (counterexample): invoking `start_grading` with an empty credential
but an empty file list reports nothing at all — no configuration error is
shown (the empty-list check returns first). -/
theorem c7_empty_list_no_config_error_cex :
    start_grading envAllFail [] [] "" "ep-2024" = ([], []) ∧
    Ev.configError ∉ (start_grading envAllFail [] [] "" "ep-2024").2 := by
  decide

/-- C7 (amended): when the file list is nonempty and the stripped
credential or stripped endpoint is empty, `start_grading` reports exactly
the configuration error: no worker event occurs and the cache is returned
unchanged. -/
theorem c7_config_error_fast_fail :
    ∀ (env : GradeEnv) (files : List String) (store : Store) (key ep : String),
    files ≠ [] → (pyStrip key = "" ∨ pyStrip ep = "") →
    start_grading env files store key ep = (store, [Ev.configError]) := by
  intro env files store key ep hne hor
  rw [start_grading, if_neg (by simp only [List.length_eq_zero]; exact hne),
    if_pos (by rcases hor with h | h <;> simp [h])]

/-- C7 (witness for the amended theorem at a concrete input: whitespace
credential). -/
theorem c7_config_error_fast_fail_witness :
    start_grading envAllFail ["A"] [] "   " "ep-2024" = ([], [Ev.configError]) :=
  c7_config_error_fast_fail envAllFail ["A"] [] "   " "ep-2024" (by decide)
    (Or.inl (by decide))

/-- C8: for a nonempty file list the trace splits into a body followed by
the final 100-percent report and the batch-complete event; in the body
every worker start for the file at position `i` is immediately preceded
by the progress report `i * 100 / n` (the integer value of
`(index / count) * 100`) with `i < n`, and every progress value in the
body is strictly below 100 — so 100 is reported only on completion, and
the last file's start reports less than 100. -/
theorem c8_progress_before_each_file :
    ∀ (env : GradeEnv) (files : List String) (store : Store), files ≠ [] →
    ∃ body, (runBatch env files store).2 = body ++ [Ev.progress 100, Ev.batchComplete] ∧
      ProgOK files.length body ∧ ∀ v, Ev.progress v ∈ body → v < 100 := by
  intro env files store _
  exact processList_progress env files.length files 0 store (by omega)

/-- C8 (witness at a concrete input). -/
theorem c8_progress_before_each_file_witness :
    (["A"] : List String) ≠ [] ∧
    ∃ body, (runBatch envAllFail ["A"] []).2 = body ++ [Ev.progress 100, Ev.batchComplete] ∧
      ProgOK 1 body ∧ ∀ v, Ev.progress v ∈ body → v < 100 :=
  ⟨by decide, c8_progress_before_each_file envAllFail ["A"] [] (by decide)⟩

/-- C10 (counterexample): a grayscale image (mode `L`) is not converted,
so the JPEG payload is not produced from an RGB image; a
grayscale-plus-alpha image (mode `LA`) is an alpha-channel mode that is
not flattened to RGB either. -/
theorem c10_mode_cex :
    normalizeMode "L" = "L" ∧ ("L" : String) ≠ "RGB" ∧ normalizeMode "LA" = "LA" := by
  decide

/-- C10 (amended): exactly the modes `RGBA` and `P` are converted to plain
`RGB` before JPEG encoding (PIL `convert("RGB")` drops alpha rather than
compositing); every other mode — including the alpha-carrying `LA`/`PA`
and the non-RGB `L`/`CMYK` — passes through unchanged, so the payload is
RGB only when the input mode is `RGB`, `RGBA` or `P`. -/
theorem c10_mode_normalization :
    normalizeMode "RGBA" = "RGB" ∧ normalizeMode "P" = "RGB" ∧
    ∀ m : String, m ≠ "RGBA" → m ≠ "P" → normalizeMode m = m := by
  refine ⟨rfl, rfl, ?_⟩
  intro m h1 h2
  simp [normalizeMode, h1, h2]

/-- C10 (witness for the amended theorem at a concrete input). -/
theorem c10_mode_normalization_witness :
    ("CMYK" : String) ≠ "RGBA" ∧ ("CMYK" : String) ≠ "P" ∧
    normalizeMode "CMYK" = "CMYK" :=
  ⟨by decide, by decide, c10_mode_normalization.2.2 "CMYK" (by decide) (by decide)⟩

/-- C6 (counterexample): a well-formed JSON result string whose
`recognized_text` value contains the literal substring three-backticks is
changed by post-processing (the fence removal deletes characters inside
the string value), so the round trip parses successfully but yields a
different structure than the input. -/
theorem c6_roundtrip_cex :
    jparse (postprocessS (serializeJ
      (JVal.jobj (JObj.cons "recognized_text" (JVal.jstr "a```b") JObj.nil)))) =
      some (JVal.jobj (JObj.cons "recognized_text" (JVal.jstr "ab") JObj.nil)) ∧
    JVal.jobj (JObj.cons "recognized_text" (JVal.jstr "ab") JObj.nil) ≠
      JVal.jobj (JObj.cons "recognized_text" (JVal.jstr "a```b") JObj.nil) := by
  decide

/-- C6 (amended): for every JSON result structure whose serialization does
not contain the code-fence substring, feeding the serialized string
through the response post-processing (removal of the literal substrings
for fenced JSON and trailing fences, then stripping surrounding
whitespace) and parsing yields exactly the input structure. -/
theorem c6_roundtrip_fence_free :
    ∀ v : JVal, containsL (serV v) ("```".data) = false →
    jparse (postprocessS (serializeJ v)) = some v := by
  intro v h
  rw [postprocessS_id (serializeJ v) h (serV_head_not_space v) (serV_last_not_space v)]
  exact jparse_serializeJ v

/-- C6 (witness for the amended theorem at a concrete input). -/
theorem c6_roundtrip_fence_free_witness :
    containsL (serV (JVal.jobj (JObj.cons "recognized_text" (JVal.jstr "hi") JObj.nil)))
      ("```".data) = false ∧
    jparse (postprocessS (serializeJ
      (JVal.jobj (JObj.cons "recognized_text" (JVal.jstr "hi") JObj.nil)))) =
      some (JVal.jobj (JObj.cons "recognized_text" (JVal.jstr "hi") JObj.nil)) :=
  ⟨by decide, c6_roundtrip_fence_free
    (JVal.jobj (JObj.cons "recognized_text" (JVal.jstr "hi") JObj.nil)) (by decide)⟩

/-- C9 (counterexample): for the model response that wraps non-JSON content
in a code fence, the emitted per-file error message carries the first 200
characters of the *post-processed* content and does not contain the first
200 characters of the raw response. -/
theorem c9_raw_excerpt_cex :
    workerRun (Transport.reply "```json\nnot json") =
      WorkerSignal.error (parseFailMsg "not json") ∧
    containsL (parseFailMsg "not json").data
      (pyTake 200 "```json\nnot json").data = false := by
  decide

/-- C9 (amended): whenever the post-processed response content fails to
parse as JSON, the worker emits an error (never a crash) whose message is
the fixed parse-failure template carrying the first 200 characters of the
post-processed content — a shape distinct from transport errors, which
pass the exception text through unchanged — and the batch still runs to
completion (its trace always ends with the batch-complete event). -/
theorem c9_parse_failure_isolated :
    ∀ raw : String, jparse (postprocessS raw) = none →
    workerRun (Transport.reply raw) = .error (parseFailMsg (postprocessS raw)) ∧
    containsL (parseFailMsg (postprocessS raw)).data
      (pyTake 200 (postprocessS raw)).data = true ∧
    (∀ m, workerRun (Transport.netErr m) = .error m) ∧
    (∀ (env : GradeEnv) (files : List String) (store : Store),
      ((runBatch env files store).2).getLast? = some Ev.batchComplete) := by
  intro raw h
  refine ⟨?_, ?_, fun m => rfl, fun env files store => runBatch_last env files store⟩
  · show (match jparse (postprocessS raw) with
      | some j => WorkerSignal.finished j
      | none => WorkerSignal.error (parseFailMsg (postprocessS raw))) =
      WorkerSignal.error (parseFailMsg (postprocessS raw))
    rw [h]
  · rw [parseFailMsg, String.data_append]
    exact containsL_append_suffix _ _

/-- C9 (witness for the amended theorem at a concrete input). -/
theorem c9_parse_failure_isolated_witness :
    jparse (postprocessS "not json") = none ∧
    workerRun (Transport.reply "not json") =
      .error (parseFailMsg (postprocessS "not json")) :=
  ⟨by decide, (c9_parse_failure_isolated "not json" (by decide)).1⟩

end EssayGrader
